import Mathlib

/-!
Verification of the XenQnt tuning engine (src/src/XenQnt.cpp) against its
specification. The C++ code is shallowly embedded: `double` becomes `ℚ`,
`int` becomes `ℤ`, vectors and lists become `List`, and the two unbounded
`while (!done)` walks of `updateTuning` become fuelled loops whose fuel
(`tuningFuel`) exceeds the number of passes the C++ loop performs whenever
the loop terminates with non-negative cents (each pass moves `periodOffset`
by `period/1200`, and the walk is done once the offset leaves
`[MIN_VOLT, MAX_VOLT]`). The fallible in-place write `scale.at(i)` of the
scale learner is modelled with `Option`.
-/

namespace XenQnt

set_option maxRecDepth 8000

/-- ScaleStep (XenQnt.cpp lines 33-36): a value in the scala file. -/
structure ScaleStep where
  cents : ℚ
  enabled : Bool
deriving DecidableEq, Repr

/-- TuningStep (XenQnt.cpp lines 41-44): a step in the actual tuning;
`scaleIndex` points at the originating value in the scala file. -/
structure TuningStep where
  voltage : ℚ
  scaleIndex : ℤ
deriving DecidableEq, Repr

instance : Inhabited ScaleStep := ⟨⟨0, false⟩⟩

instance : Inhabited TuningStep := ⟨⟨0, 0⟩⟩

/-- MappingMode (XenQnt.cpp line 47). -/
inductive MappingMode
  | proximity
  | proportional
  | twelveEdoInput
deriving DecidableEq, Repr

/-- MIN_VOLT (XenQnt.cpp line 72). -/
def MIN_VOLT : ℚ := -4

/-- MAX_VOLT (XenQnt.cpp line 73). -/
def MAX_VOLT : ℚ := 6

/-- C's round(): round half away from zero, as used by the proportional and
12-EDO mapping algorithms (XenQnt.cpp lines 320, 323, 352). -/
def cppRound (q : ℚ) : ℤ :=
  if q < 0 then -⌊-q + 1 / 2⌋ else ⌊q + 1 / 2⌋

/-- The tuning-relevant state of the XenQnt module (XenQnt.cpp lines 76-122),
with the C++ member initializers as defaults. `pitches` is the full table,
`enabledPitches` the enabled-only table. -/
structure State where
  pitches : List TuningStep := []
  numNegativeVoltages : ℤ := 0
  numEnabledNegativeVoltages : ℤ := 0
  numEnabledSteps : ℤ := 0
  enabledPitches : List TuningStep := []
  scale : List ScaleStep := []
  newScale : List ScaleStep := []
  backupScale : List ScaleStep := []
  scalaDir : String := ""
  tuningName : String := "12-EDO"
  prevInputVolts : List ℚ := []
  cvMappingMode : MappingMode := .proximity
  inputMappingMode : MappingMode := .proximity
  cvConnected : Bool := false
  tuningChangeRequested : Bool := false
  error : Bool := false
deriving DecidableEq, Repr

/-- One pass of the forward (positive-voltage) walk of updateTuning
(XenQnt.cpp lines 447-460): walk the scale at a fixed `periodOffset`,
emitting `voltage = periodOffset + cents/1200` with the step's index and
enabled flag as long as `voltage ≤ MAX_VOLT`; the Bool result is the
loop's `done` flag, set at the first step whose voltage exceeds MAX_VOLT.
The full table takes every emitted entry, the enabled table those whose
flag is true, in the same order the C++ loop pushes them. -/
def fwdPassGo (offset : ℚ) : ℤ → List ScaleStep → List (TuningStep × Bool) × Bool
  | _, [] => ([], false)
  | i, s :: rest =>
    let v := offset + s.cents / 1200
    if v ≤ MAX_VOLT then
      let r := fwdPassGo offset (i + 1) rest
      ((⟨v, i⟩, s.enabled) :: r.1, r.2)
    else ([], true)

/-- The forward `while (!done)` loop of updateTuning (XenQnt.cpp lines
446-462): passes at offsets 0, period/1200, 2·period/1200, ... until a pass
sets `done`; `fuel` bounds the number of passes (see the file comment). -/
def fwdLoop (scale : List ScaleStep) (period : ℚ) : ℕ → ℚ → List (TuningStep × Bool)
  | 0, _ => []
  | fuel + 1, offset =>
    let p := fwdPassGo offset 0 scale
    if p.2 then p.1
    else p.1 ++ fwdLoop scale period fuel (offset + period / 1200)

/-- One pass of the backward (non-positive-voltage) walk of updateTuning
(XenQnt.cpp lines 470-487): walk the reversed scale at a fixed
`periodOffset`, emitting `voltage = periodOffset + (cents - period)/1200`
as long as `voltage ≥ MIN_VOLT`. The argument `j` is the position in the
reversed scale, so the emitted index is `distance(step, scale.rend()) - 1
= n - j - 1`. Entries are listed in emission order; the C++ `push_front`
makes the pass contribute its reverse to the front of the deque. -/
def bwdPassGo (period offset : ℚ) (n : ℕ) : ℕ → List ScaleStep → List (TuningStep × Bool) × Bool
  | _, [] => ([], false)
  | j, s :: rest =>
    let v := offset + (s.cents - period) / 1200
    if MIN_VOLT ≤ v then
      let r := bwdPassGo period offset n (j + 1) rest
      ((⟨v, (n : ℤ) - j - 1⟩, s.enabled) :: r.1, r.2)
    else ([], true)

/-- The backward `while (!done)` loop of updateTuning (XenQnt.cpp lines
467-489): passes at offsets 0, -period/1200, ... ; each pass's entries are
pushed to the front of everything emitted before, so a deeper pass's block
precedes (is left of) a shallower pass's reversed block. -/
def bwdLoop (scale : List ScaleStep) (period : ℚ) (n : ℕ) : ℕ → ℚ → List (TuningStep × Bool)
  | 0, _ => []
  | fuel + 1, offset =>
    let p := bwdPassGo period offset n 0 scale.reverse
    if p.2 then p.1.reverse
    else bwdLoop scale period n fuel (offset - period / 1200) ++ p.1.reverse

/-- Fuel for the two walks: when `0 < period` and all cents are
non-negative, the forward walk is done within `⌈7200/period⌉ + 1` passes
(its offset then exceeds MAX_VOLT·1200 cents) and the backward walk even
sooner, so this fuel makes the fuelled loops agree with the C++ loops. -/
def tuningFuel (period : ℚ) : ℕ := (7200 / period).ceil.toNat + 2

/-- updateTuning (XenQnt.cpp lines 437-508): derive both tuning tables from
the current scale. `numNegativeVoltages` is the number of entries the
backward walk emitted minus one (line 492); `numEnabledNegativeVoltages`
counts the backward-walk entries that are enabled and strictly negative
(lines 475-480); `numEnabledSteps` counts the enabled scale steps
(lines 502-507). `scale.back()` is total here via `getLastD` (the C++ code
never calls this with an empty scale). -/
def updateTuning (st : State) : State :=
  let period := (st.scale.getLastD default).cents
  let fwd := fwdLoop st.scale period (tuningFuel period) 0
  let bwd := bwdLoop st.scale period st.scale.length (tuningFuel period) 0
  let voltages := bwd ++ fwd
  { st with
    pitches := voltages.map Prod.fst
    enabledPitches := (voltages.filter Prod.snd).map Prod.fst
    numNegativeVoltages := (bwd.length : ℤ) - 1
    numEnabledNegativeVoltages :=
      ((bwd.filter fun e => e.2 && decide (e.1.voltage < 0)).length : ℤ)
    numEnabledSteps := (st.scale.countP (·.enabled) : ℤ) }

/-- The table getPitchByProximity and the empty-table fallback read:
the enabled table when `enabled` is true, else the full table. -/
def selectedTable (st : State) (enabled : Bool) : List TuningStep :=
  if enabled then st.enabledPitches else st.pitches

/-- The sentinel returned when the consulted table is empty
(XenQnt.cpp lines 327-329, 347-349, 380-382): 0 V tagged with the index of
the last scale step. -/
def emptySentinel (st : State) : TuningStep :=
  ⟨0, (st.scale.length : ℤ) - 1⟩

/-- getPitchByProximity (XenQnt.cpp lines 372-403): `std::lower_bound` finds
the first entry whose voltage is not less than `v` (here `findIdx` of the
same predicate, which on the sorted tables the C++ code searches is the
same leftmost-not-less position); if it is the first entry return it, if
the search is exhausted return the last entry, otherwise return whichever
of the candidate and its predecessor is nearer to `v`, ties going to the
candidate (the code returns the floor only when
`ceil->voltage - v > v - floor->voltage`). -/
def getPitchByProximity (st : State) (v : ℚ) (enabled : Bool) : TuningStep :=
  let pl := selectedTable st enabled
  if pl.isEmpty then emptySentinel st
  else
    let i := pl.findIdx fun step => !decide (step.voltage < v)
    if i = 0 then pl.headD default
    else if i = pl.length then pl.getLastD default
    else
      let c := pl.getD i default
      let f := pl.getD (i - 1) default
      if v - f.voltage < c.voltage - v then f else c

/-- getPitchProportional (XenQnt.cpp lines 312-341): a uniform-grid index
`negativeCount + round(v / periodInVolts · stepCount)` into the chosen
table, clamped by the `pitchIndex < 0` and `pitchIndex >= size` branches;
an empty chosen table yields the sentinel. -/
def getPitchProportional (st : State) (v : ℚ) (enabled : Bool) : TuningStep :=
  let period : ℚ := (st.scale.getLastD default).cents / 1200
  let pl := selectedTable st enabled
  let pitchIndex : ℤ :=
    if enabled then
      st.numEnabledNegativeVoltages + cppRound (v / period * st.numEnabledSteps)
    else
      st.numNegativeVoltages + cppRound (v / period * st.scale.length)
  if pl.isEmpty then emptySentinel st
  else if pitchIndex < 0 then pl.headD default
  else if (pl.length : ℤ) ≤ pitchIndex then pl.getLastD default
  else pl.getD pitchIndex.toNat default

/-- getPitchFrom12Edo (XenQnt.cpp lines 344-369): index
`numNegativeVoltages + round(v * 12)` into the full table; the `< 0` and
`>= size` branches return the first/last full-table entry directly; only
the in-range branch re-quantizes the entry's voltage against the enabled
table when `enabled` is set. The empty check is on the full table even
when `enabled` is true, exactly as in the source. -/
def getPitchFrom12Edo (st : State) (v : ℚ) (enabled : Bool) : TuningStep :=
  if st.pitches.isEmpty then emptySentinel st
  else
    let pitchIndex : ℤ := st.numNegativeVoltages + cppRound (v * 12)
    if pitchIndex < 0 then st.pitches.headD default
    else if (st.pitches.length : ℤ) ≤ pitchIndex then st.pitches.getLastD default
    else
      let step := st.pitches.getD pitchIndex.toNat default
      if enabled then getPitchByProximity st step.voltage true else step

/-- The mapping-mode switch shared by getEnabledPitch (XenQnt.cpp lines
285-296) and getCvPitch (lines 298-309); the `default` case of the C++
switch is unreachable because the enum has exactly these three values. -/
def quantizePitch (st : State) (v : ℚ) (mode : MappingMode) (enabled : Bool) : TuningStep :=
  match mode with
  | .proportional => getPitchProportional st v enabled
  | .proximity => getPitchByProximity st v enabled
  | .twelveEdoInput => getPitchFrom12Edo st v enabled

/-- getEnabledPitch (XenQnt.cpp lines 285-296): quantize the main pitch
input against the enabled table under the input mapping mode. -/
def getEnabledPitch (st : State) (v : ℚ) : TuningStep :=
  quantizePitch st v st.inputMappingMode true

/-- getCvPitch (XenQnt.cpp lines 298-309): quantize an auxiliary CV voltage
against the full table under the CV mapping mode. -/
def getCvPitch (st : State) (v : ℚ) : TuningStep :=
  quantizePitch st v st.cvMappingMode false

/-- setEnabledStatusAllSteps (XenQnt.cpp lines 256-260). -/
def setEnabledStatusAllSteps (st : State) (enabled : Bool) : State :=
  { st with scale := st.scale.map fun s => { s with enabled := enabled } }

/-- The tuning-change checkpoint at the top of process() (XenQnt.cpp lines
152-162): when a change was requested, install a non-empty staged scale
into the live one (also refreshing the backup), rebuild the tables, clear
the request flag and the CV debounce memory. -/
def commitStep (st : State) : State :=
  if st.tuningChangeRequested then
    let st1 :=
      if st.newScale.isEmpty then st
      else { st with scale := st.newScale, backupScale := st.newScale, newScale := [] }
    let st2 := updateTuning st1
    { st2 with tuningChangeRequested := false, prevInputVolts := [] }
  else st

/-- The scale learner's write `scale.at(step.scaleIndex).enabled = true`
(XenQnt.cpp line 182); `at` throws on an out-of-range index, modelled as
`none`. -/
def enableStep (sc : List ScaleStep) (i : ℤ) : Option (List ScaleStep) :=
  if h : 0 ≤ i ∧ i.toNat < sc.length then
    some (sc.set i.toNat { sc.get ⟨i.toNat, h.2⟩ with enabled := true })
  else none

/-- The scale-learning body of process() (XenQnt.cpp lines 179-183): disable
every step, then for each input voltage enable the originating step of its
CV pitch. The fold threads the partially re-enabled scale through
getCvPitch exactly as the C++ loop reads the mutated `scale` member (the
tables it consults are still the committed ones). -/
def learnScale (st : State) (inputVolts : List ℚ) : Option (List ScaleStep) :=
  inputVolts.foldlM
    (fun sc v => enableStep sc (getCvPitch { st with scale := sc } v).scaleIndex)
    (st.scale.map fun s => { s with enabled := false })

/-- The CV-scan branch of process() (XenQnt.cpp lines 178-186): when the
input vector differs from the previous scan's, learn the enabled set,
rebuild the tables and remember the vector; otherwise do nothing. -/
def cvScanStep (st : State) (inputVolts : List ℚ) : Option State :=
  if inputVolts ≠ st.prevInputVolts then
    (learnScale st inputVolts).map fun sc =>
      updateTuning { st with scale := sc, prevInputVolts := inputVolts }
  else some st

/-- A manual step toggle at the light tick (XenQnt.cpp lines 223-226 and
231-234): flip the step's enabled flag in the live scale and rebuild the
tables in the same tick (`userPushed` path). -/
def toggleStep (st : State) (pos : ℕ) : State :=
  let s := st.scale.getD pos default
  updateTuning { st with scale := st.scale.set pos { s with enabled := !s.enabled } }

/-- The default 12 equal-division scale staged by onReset (XenQnt.cpp lines
527-529): steps at 100, 200, ..., 1200 cents, all enabled. -/
def twelveEdoScale : List ScaleStep :=
  (List.range 12).map fun i => ⟨((i : ℚ) + 1) * 100, true⟩

/-- onReset (XenQnt.cpp lines 524-531): stage the default tuning in
`newScale` and request a change; the live scale is untouched here. -/
def onReset (st : State) : State :=
  { st with
    tuningName := "12-EDO"
    newScale := twelveEdoScale
    tuningChangeRequested := true }

/-- onRandomize (XenQnt.cpp lines 534-544): flip each live step's enabled
flag according to `rand() % 100 >= 50`, the successive `rand()` values
supplied by `coins`; the table rebuild is deferred via the request flag. -/
def onRandomize (st : State) (coins : ℕ → ℕ) : State :=
  { st with
    scale := st.scale.mapIdx fun i s => { s with enabled := decide (50 ≤ coins i % 100) }
    tuningChangeRequested := true }

/-- getBaseName (utils.cpp lines 40-43, inlined at XenQnt.cpp line 413): the
substring after the last '/' or '\'. -/
def getBaseName (s : String) : String :=
  (s.split fun c => c = '/' || c = '\\').getLastD s

/-- updateScale (XenQnt.cpp lines 406-433): clear the staged scale, set the
tuning name to the file's basename, and either stage the parsed cent
values (all enabled, sorted ascending by cents) or, on a parse failure
(`parsedTones = none`), revert the name and raise the error flag. The
external scala parser is the opaque collaborator; its outcome is the
`parsedTones` argument. -/
def updateScale (st : State) (scalaFile : String) (parsedTones : Option (List ℚ)) : State :=
  let oldTuningName := st.tuningName
  let st1 := { st with newScale := [], tuningName := getBaseName scalaFile }
  match parsedTones with
  | some tones =>
    { st1 with
      newScale := (tones.map fun c => (⟨c, true⟩ : ScaleStep)).mergeSort
        fun a b => decide (a.cents ≤ b.cents) }
  | none => { st1 with tuningName := oldTuningName, error := true }

/-- pathSelected (XenQnt.cpp lines 664-671): on a chosen path, record its
parent directory (the filesystem lookup of getParent is the `parentDir`
argument), run updateScale, and request a tuning change - also when the
parse failed. -/
def pathSelected (st : State) (path : Option String) (parsedTones : Option (List ℚ))
    (parentDir : String) : State :=
  match path with
  | none => st
  | some p =>
    let st1 := updateScale { st with scalaDir := parentDir } p parsedTones
    { st1 with tuningChangeRequested := true }

/-- dataFromJson (XenQnt.cpp lines 570-605) with the json fields already
decoded: absent mapping modes default to proximity, an absent tuning name
to "Unknown", an absent directory leaves the field alone; a present scale
list is staged in `newScale`; a change is requested unconditionally. -/
def dataFromJson (st : State) (jScale : Option (List ScaleStep))
    (jScalaDir jTuningName : Option String)
    (jInputMappingMode jCvMappingMode : Option MappingMode) : State :=
  let st1 := { st with
    inputMappingMode := jInputMappingMode.getD .proximity
    cvMappingMode := jCvMappingMode.getD .proximity
    tuningName := jTuningName.getD "Unknown"
    scalaDir := jScalaDir.getD st.scalaDir }
  let st2 :=
    match jScale with
    | some sc => { st1 with newScale := sc }
    | none => st1
  { st2 with tuningChangeRequested := true }

/-- A module state as constructed (XenQnt.cpp lines 125-138): all member
initializers, before onReset's staged change is committed. -/
def initState : State := {}

/-- The committed default tuning: onReset's staged 12-EDO scale after the
next process() tick's checkpoint. -/
def defaultCommitted : State := commitStep (onReset initState)

/-- A committed one-step scale (one enabled step of a full period): its full
table is the integer voltages -4 .. 6, all with scaleIndex 0. -/
def stOne : State := updateTuning { scale := [⟨1200, true⟩] }

/-- A committed one-step scale whose only step is disabled: the full table
is -4 .. 6 but the enabled table is empty. -/
def stOneOff : State := updateTuning { scale := [⟨1200, false⟩] }

/-- A committed two-step scale with the half-period step enabled and the
period step disabled: the full table holds the half-integer and integer
voltages, the enabled table only the half-integers. -/
def stHalf : State := updateTuning { scale := [⟨600, true⟩, ⟨1200, false⟩] }

/-! ## Evaluation lemmas for the concrete states -/

/-- The one-step tuning's tables evaluated: integer voltages -4 .. 6. -/
theorem stOne_eval : stOne =
    { pitches := [⟨-4, 0⟩, ⟨-3, 0⟩, ⟨-2, 0⟩, ⟨-1, 0⟩, ⟨0, 0⟩, ⟨1, 0⟩,
        ⟨2, 0⟩, ⟨3, 0⟩, ⟨4, 0⟩, ⟨5, 0⟩, ⟨6, 0⟩]
      numNegativeVoltages := 4
      numEnabledNegativeVoltages := 4
      numEnabledSteps := 1
      enabledPitches := [⟨-4, 0⟩, ⟨-3, 0⟩, ⟨-2, 0⟩, ⟨-1, 0⟩, ⟨0, 0⟩, ⟨1, 0⟩,
        ⟨2, 0⟩, ⟨3, 0⟩, ⟨4, 0⟩, ⟨5, 0⟩, ⟨6, 0⟩]
      scale := [⟨1200, true⟩] } := by
  norm_num [stOne, updateTuning, tuningFuel, fwdLoop, fwdPassGo, bwdLoop, bwdPassGo,
    MIN_VOLT, MAX_VOLT]

/-- The disabled one-step tuning's tables evaluated: full table -4 .. 6,
enabled table empty. -/
theorem stOneOff_eval : stOneOff =
    { pitches := [⟨-4, 0⟩, ⟨-3, 0⟩, ⟨-2, 0⟩, ⟨-1, 0⟩, ⟨0, 0⟩, ⟨1, 0⟩,
        ⟨2, 0⟩, ⟨3, 0⟩, ⟨4, 0⟩, ⟨5, 0⟩, ⟨6, 0⟩]
      numNegativeVoltages := 4
      numEnabledNegativeVoltages := 0
      numEnabledSteps := 0
      enabledPitches := []
      scale := [⟨1200, false⟩] } := by
  norm_num [stOneOff, updateTuning, tuningFuel, fwdLoop, fwdPassGo, bwdLoop, bwdPassGo,
    MIN_VOLT, MAX_VOLT]

/-- The half-step tuning's tables evaluated: half-integers enabled,
integers disabled. -/
theorem stHalf_eval : stHalf =
    { pitches := [⟨-4, 1⟩, ⟨-7/2, 0⟩, ⟨-3, 1⟩, ⟨-5/2, 0⟩, ⟨-2, 1⟩, ⟨-3/2, 0⟩,
        ⟨-1, 1⟩, ⟨-1/2, 0⟩, ⟨0, 1⟩, ⟨1/2, 0⟩, ⟨1, 1⟩, ⟨3/2, 0⟩, ⟨2, 1⟩,
        ⟨5/2, 0⟩, ⟨3, 1⟩, ⟨7/2, 0⟩, ⟨4, 1⟩, ⟨9/2, 0⟩, ⟨5, 1⟩, ⟨11/2, 0⟩, ⟨6, 1⟩]
      numNegativeVoltages := 8
      numEnabledNegativeVoltages := 4
      numEnabledSteps := 1
      enabledPitches := [⟨-7/2, 0⟩, ⟨-5/2, 0⟩, ⟨-3/2, 0⟩, ⟨-1/2, 0⟩, ⟨1/2, 0⟩,
        ⟨3/2, 0⟩, ⟨5/2, 0⟩, ⟨7/2, 0⟩, ⟨9/2, 0⟩, ⟨11/2, 0⟩]
      scale := [⟨600, true⟩, ⟨1200, false⟩] } := by
  norm_num [stHalf, updateTuning, tuningFuel, fwdLoop, fwdPassGo, bwdLoop, bwdPassGo,
    MIN_VOLT, MAX_VOLT]

/-- Proximity quantization of 0.05 V on the committed default 12-EDO tuning
evaluated: the nearest entry is 1/12 V, originating from scale step 0
(the 100-cent step is the first value of the scala file). -/
theorem default_proximity_eval :
    getPitchByProximity defaultCommitted (1 / 20) true = ⟨1 / 12, 0⟩ := by
  norm_num [defaultCommitted, commitStep, onReset, initState, twelveEdoScale,
    updateTuning, tuningFuel, fwdLoop, fwdPassGo, bwdLoop, bwdPassGo,
    MIN_VOLT, MAX_VOLT, getPitchByProximity, selectedTable, List.findIdx_cons,
    List.range_succ]

/-! ## General helper lemmas -/

/-- headD is getD at index 0. -/
theorem headD_eq_getD {α : Type} (l : List α) (d : α) : l.headD d = l.getD 0 d := by
  cases l <;> rfl

/-- On a non-empty list, getLastD is getD at the last index. -/
theorem getLastD_eq_getD {α : Type} (l : List α) (d : α) :
    l.getLastD d = l.getD (l.length - 1) d := by
  simp [List.getLastD_eq_getLast?, List.getLast?_eq_getElem?]

/-- updateTuning rewrites only the tables and counters. -/
theorem updateTuning_only_tables (st : State) :
    (updateTuning st).scale = st.scale ∧ (updateTuning st).newScale = st.newScale ∧
    (updateTuning st).backupScale = st.backupScale ∧
    (updateTuning st).prevInputVolts = st.prevInputVolts ∧
    (updateTuning st).tuningChangeRequested = st.tuningChangeRequested := by
  simp [updateTuning]

/-- The tables updateTuning builds depend only on the scale. -/
theorem updateTuning_congr {s1 s2 : State} (h : s1.scale = s2.scale) :
    (updateTuning s1).pitches = (updateTuning s2).pitches ∧
    (updateTuning s1).enabledPitches = (updateTuning s2).enabledPitches ∧
    (updateTuning s1).numNegativeVoltages = (updateTuning s2).numNegativeVoltages ∧
    (updateTuning s1).numEnabledNegativeVoltages = (updateTuning s2).numEnabledNegativeVoltages ∧
    (updateTuning s1).numEnabledSteps = (updateTuning s2).numEnabledSteps := by
  simp [updateTuning, h]

/-- Rewriting enabled flags entry-wise preserves the cents of a scale. -/
theorem mapIdx_map_cents (l : List ScaleStep) (f : ℕ → ScaleStep → Bool) :
    ((l.mapIdx fun i s => { s with enabled := f i s }).map (·.cents)) = l.map (·.cents) := by
  apply List.ext_getElem?
  intro i
  simp only [List.getElem?_map, List.getElem?_mapIdx]
  cases l[i]? <;> rfl

/-- Replacing one entry by an enabled-flag variant of the entry at that
position preserves the cents of a scale. -/
theorem set_map_cents (l : List ScaleStep) (pos : ℕ) (b : Bool) :
    ((l.set pos { l.getD pos default with enabled := b }).map (·.cents)) = l.map (·.cents) := by
  apply List.ext_getElem?
  intro i
  simp only [List.getElem?_map, List.getElem?_set]
  by_cases hip : pos = i
  · subst hip
    by_cases hpos : pos < l.length
    · simp [hpos, List.getElem?_eq_getElem hpos]
    · simp [hpos, List.getElem?_eq_none (Nat.le_of_not_lt hpos)]
  · simp [hip]

/-- getLastD commutes with map. -/
theorem getLastD_map {α β : Type} (f : α → β) (l : List α) (d : α) :
    (l.map f).getLastD (f d) = f (l.getLastD d) := by
  induction l generalizing d with
  | nil => rfl
  | cons a t ih =>
    rw [List.map_cons, List.getLastD_cons, List.getLastD_cons]
    exact ih a

/-- Every entry a forward pass emits carries a scale index in
`[i, i + length)`. -/
theorem fwdPassGo_idx {l : List ScaleStep} {off : ℚ} {i : ℤ} {e : TuningStep × Bool}
    (he : e ∈ (fwdPassGo off i l).1) :
    i ≤ e.1.scaleIndex ∧ e.1.scaleIndex < i + l.length := by
  induction l generalizing i with
  | nil => simp [fwdPassGo] at he
  | cons s rest ih =>
    simp only [fwdPassGo] at he
    by_cases h : off + s.cents / 1200 ≤ MAX_VOLT
    · rw [if_pos h] at he
      rcases List.mem_cons.mp he with rfl | he
      · simp only [List.length_cons]
        constructor
        · exact le_refl i
        · push_cast
          omega
      · have := ih he
        simp only [List.length_cons]
        push_cast
        push_cast at this
        omega
    · rw [if_neg h] at he
      simp at he

/-- Every entry the forward loop emits carries a scale index in
`[0, scale.length)`. -/
theorem fwdLoop_idx {scale : List ScaleStep} {period : ℚ} {fuel : ℕ} {off : ℚ}
    {e : TuningStep × Bool} (he : e ∈ fwdLoop scale period fuel off) :
    0 ≤ e.1.scaleIndex ∧ e.1.scaleIndex < scale.length := by
  induction fuel generalizing off with
  | zero => simp [fwdLoop] at he
  | succ fuel ih =>
    simp only [fwdLoop] at he
    by_cases h : (fwdPassGo off 0 scale).2 = true
    · rw [if_pos h] at he
      simpa using fwdPassGo_idx he
    · rw [if_neg h] at he
      rcases List.mem_append.mp he with he | he
      · simpa using fwdPassGo_idx he
      · exact ih he

/-- Every entry a backward pass over `l` emits carries a scale index in
`(n - j - length - 1, n - j - 1]`. -/
theorem bwdPassGo_idx {l : List ScaleStep} {period off : ℚ} {n : ℕ} {j : ℕ}
    {e : TuningStep × Bool} (he : e ∈ (bwdPassGo period off n j l).1) :
    (n : ℤ) - j - l.length ≤ e.1.scaleIndex ∧ e.1.scaleIndex ≤ (n : ℤ) - j - 1 := by
  induction l generalizing j with
  | nil => simp [bwdPassGo] at he
  | cons s rest ih =>
    simp only [bwdPassGo] at he
    by_cases h : MIN_VOLT ≤ off + (s.cents - period) / 1200
    · rw [if_pos h] at he
      rcases List.mem_cons.mp he with rfl | he
      · simp only [List.length_cons]
        push_cast
        omega
      · have := ih he
        simp only [List.length_cons]
        push_cast
        push_cast at this
        omega
    · rw [if_neg h] at he
      simp at he

/-- Every entry the backward loop emits carries a scale index in
`[0, scale.length)` (the pass walks the reversed scale, whose length is
the scale's). -/
theorem bwdLoop_idx {scale : List ScaleStep} {period : ℚ} {n : ℕ} {fuel : ℕ} {off : ℚ}
    {e : TuningStep × Bool} (hn : n = scale.length)
    (he : e ∈ bwdLoop scale period n fuel off) :
    0 ≤ e.1.scaleIndex ∧ e.1.scaleIndex < scale.length := by
  induction fuel generalizing off with
  | zero => simp [bwdLoop] at he
  | succ fuel ih =>
    simp only [bwdLoop] at he
    have hlen : scale.reverse.length = n := by simp [hn]
    by_cases h : (bwdPassGo period off n 0 scale.reverse).2 = true
    · rw [if_pos h] at he
      have := bwdPassGo_idx (List.mem_reverse.mp he)
      rw [hlen] at this
      have hne : scale.reverse ≠ [] := by
        intro hc
        rw [hc] at he
        simp [bwdPassGo] at he
      have : 1 ≤ scale.length := by
        rcases List.exists_mem_of_ne_nil _ hne with ⟨x, _⟩
        have := List.length_pos.mpr hne
        simpa using this
      omega
    · rw [if_neg h] at he
      rcases List.mem_append.mp he with he | he
      · exact ih he
      · have := bwdPassGo_idx (List.mem_reverse.mp he)
        rw [hlen] at this
        have hne : scale.reverse ≠ [] := by
          intro hc
          rw [hc] at he
          simp [bwdPassGo] at he
        have : 1 ≤ scale.length := by
          have := List.length_pos.mpr hne
          simpa using this
        omega

/-- Every full-table entry of a rebuilt state carries a scale index in
`[0, scale.length)`. -/
theorem updateTuning_pitches_idx {st : State} {e : TuningStep}
    (he : e ∈ (updateTuning st).pitches) :
    0 ≤ e.scaleIndex ∧ e.scaleIndex < st.scale.length := by
  simp only [updateTuning, List.map_append, List.mem_append, List.mem_map] at he
  rcases he with ⟨pr, hpr, rfl⟩ | ⟨pr, hpr, rfl⟩
  · exact bwdLoop_idx rfl hpr
  · exact fwdLoop_idx hpr

/-- Every enabled-table entry of a rebuilt state carries a scale index in
`[0, scale.length)`. -/
theorem updateTuning_enabledPitches_idx {st : State} {e : TuningStep}
    (he : e ∈ (updateTuning st).enabledPitches) :
    0 ≤ e.scaleIndex ∧ e.scaleIndex < st.scale.length := by
  simp only [updateTuning, List.mem_map, List.mem_filter, List.mem_append] at he
  rcases he with ⟨pr, ⟨hpr, _⟩, rfl⟩
  rcases hpr with hpr | hpr
  · exact bwdLoop_idx rfl hpr
  · exact fwdLoop_idx hpr

/-- On a non-empty selected table the proximity quantizer returns one of
the table's own entries. -/
theorem getPitchByProximity_mem (st : State) (v : ℚ) (enabled : Bool)
    (h : selectedTable st enabled ≠ []) :
    getPitchByProximity st v enabled ∈ selectedTable st enabled := by
  have hemp : (selectedTable st enabled).isEmpty = false := by
    simpa [List.isEmpty_iff] using h
  have hlen : 0 < (selectedTable st enabled).length := List.length_pos.mpr h
  simp only [getPitchByProximity, hemp, Bool.false_eq_true, if_false]
  set pl := selectedTable st enabled with hpl
  set i := pl.findIdx fun step => !decide (step.voltage < v) with hi
  by_cases h0 : i = 0
  · rw [if_pos h0, headD_eq_getD, List.getD_eq_getElem?_getD, List.getElem?_eq_getElem hlen]
    exact List.getElem_mem _
  · rw [if_neg h0]
    by_cases h1 : i = pl.length
    · rw [if_pos h1, getLastD_eq_getD, List.getD_eq_getElem?_getD,
        List.getElem?_eq_getElem (by omega : pl.length - 1 < pl.length)]
      exact List.getElem_mem _
    · have hilen : i < pl.length := lt_of_le_of_ne (List.findIdx_le_length _) h1
      rw [if_neg h1]
      by_cases hc : v - (pl.getD (i - 1) default).voltage < (pl.getD i default).voltage - v
      · rw [if_pos hc, List.getD_eq_getElem?_getD,
          List.getElem?_eq_getElem (by omega : i - 1 < pl.length)]
        exact List.getElem_mem _
      · rw [if_neg hc, List.getD_eq_getElem?_getD, List.getElem?_eq_getElem hilen]
        exact List.getElem_mem _

/-- Every quantizer's result is the empty-table sentinel or an entry of one
of the two tables. -/
theorem quantizePitch_mem_or_sentinel (st : State) (v : ℚ) (mode : MappingMode)
    (enabled : Bool) :
    quantizePitch st v mode enabled = emptySentinel st ∨
    quantizePitch st v mode enabled ∈ st.pitches ∨
    quantizePitch st v mode enabled ∈ st.enabledPitches := by
  have hprox : ∀ (w : ℚ) (b : Bool), getPitchByProximity st w b = emptySentinel st ∨
      getPitchByProximity st w b ∈ st.pitches ∨
      getPitchByProximity st w b ∈ st.enabledPitches := by
    intro w b
    by_cases h : selectedTable st b = []
    · left
      have hemp : (selectedTable st b).isEmpty = true := by simp [h]
      simp [getPitchByProximity, hemp]
    · right
      have := getPitchByProximity_mem st w b h
      cases b
      · left
        simpa [selectedTable] using this
      · right
        simpa [selectedTable] using this
  have hmemD : ∀ (pl : List TuningStep) (k : ℕ), pl ≠ [] → k < pl.length →
      pl.getD k default ∈ pl := by
    intro pl k _ hk
    rw [List.getD_eq_getElem?_getD, List.getElem?_eq_getElem hk]
    exact List.getElem_mem _
  cases mode
  case proximity => exact hprox v enabled
  case proportional =>
    by_cases h : selectedTable st enabled = []
    · left
      have hemp : (selectedTable st enabled).isEmpty = true := by simp [h]
      simp [quantizePitch, getPitchProportional, hemp]
    · have hemp : (selectedTable st enabled).isEmpty = false := by
        simpa [List.isEmpty_iff] using h
      have hlen : 0 < (selectedTable st enabled).length := List.length_pos.mpr h
      have hsel : getPitchProportional st v enabled ∈ selectedTable st enabled := by
        simp only [getPitchProportional, hemp, Bool.false_eq_true, if_false]
        set idx : ℤ := if enabled then
            st.numEnabledNegativeVoltages + cppRound (v / ((st.scale.getLastD default).cents / 1200) * st.numEnabledSteps)
          else
            st.numNegativeVoltages + cppRound (v / ((st.scale.getLastD default).cents / 1200) * st.scale.length)
        by_cases hlo : idx < 0
        · rw [if_pos hlo, headD_eq_getD]
          exact hmemD _ 0 h hlen
        · rw [if_neg hlo]
          by_cases hhi : ((selectedTable st enabled).length : ℤ) ≤ idx
          · rw [if_pos hhi, getLastD_eq_getD]
            exact hmemD _ _ h (by omega)
          · rw [if_neg hhi]
            exact hmemD _ _ h (by omega)
      right
      cases enabled
      · left
        simpa [selectedTable] using hsel
      · right
        simpa [selectedTable] using hsel
  case twelveEdoInput =>
    by_cases h : st.pitches = []
    · left
      have hemp : st.pitches.isEmpty = true := by simp [h]
      simp [quantizePitch, getPitchFrom12Edo, hemp]
    · have hemp : st.pitches.isEmpty = false := by simpa [List.isEmpty_iff] using h
      have hlen : 0 < st.pitches.length := List.length_pos.mpr h
      simp only [quantizePitch, getPitchFrom12Edo, hemp, Bool.false_eq_true, if_false]
      set idx : ℤ := st.numNegativeVoltages + cppRound (v * 12)
      by_cases hlo : idx < 0
      · rw [if_pos hlo, headD_eq_getD]
        right; left
        exact hmemD _ 0 h hlen
      · rw [if_neg hlo]
        by_cases hhi : (st.pitches.length : ℤ) ≤ idx
        · rw [if_pos hhi, getLastD_eq_getD]
          right; left
          exact hmemD _ _ h (by omega)
        · rw [if_neg hhi]
          cases enabled
          · simp only [Bool.false_eq_true, if_false]
            right; left
            exact hmemD _ _ h (by omega)
          · simp only [if_true]
            exact hprox _ true

/-- The quantizers read the scale only through its length and the cents of
its last step, so rewriting enabled flags (or any cents-preserving
rewrite) does not change any quantization result. -/
theorem quantizePitch_scale_congr (st : State) (sc : List ScaleStep)
    (h : sc.map (·.cents) = st.scale.map (·.cents)) (v : ℚ) (mode : MappingMode)
    (enabled : Bool) :
    quantizePitch { st with scale := sc } v mode enabled = quantizePitch st v mode enabled := by
  have hlen : sc.length = st.scale.length := by
    have := congrArg List.length h
    simpa using this
  have hlast : (sc.getLastD default).cents = (st.scale.getLastD default).cents := by
    calc (sc.getLastD default).cents
        = (sc.map (·.cents)).getLastD ((default : ScaleStep).cents) :=
          (getLastD_map (·.cents) sc default).symm
      _ = (st.scale.map (·.cents)).getLastD ((default : ScaleStep).cents) := by rw [h]
      _ = (st.scale.getLastD default).cents := getLastD_map (·.cents) st.scale default
  have hsent : emptySentinel { st with scale := sc } = emptySentinel st := by
    simp [emptySentinel, hlen]
  have hprox : ∀ w b, getPitchByProximity { st with scale := sc } w b
      = getPitchByProximity st w b := by
    intro w b
    simp only [getPitchByProximity, selectedTable, hsent]
  cases mode
  case proximity => simp only [quantizePitch, hprox]
  case proportional =>
    simp only [quantizePitch, getPitchProportional, selectedTable, hsent, hlast, hlen]
  case twelveEdoInput =>
    simp only [quantizePitch, getPitchFrom12Edo, hsent, hprox]

/-! ## C3: the 12-EDO mapping's two-stage lookup -/

/-- C3 (amended): with `useEnabled = false` the 12-EDO mapping returns the
full-table entry at index `negativeCountFull + round(v*12)` clamped to
`[0, len-1]`; with `useEnabled = true` the entry's voltage is re-quantized
by Proximity against the enabled table only when the unclamped index is in
range - an out-of-range index returns the clamped (first or last)
full-table entry directly, with no second stage. -/
theorem twelveEdo_two_stage (st : State) (v : ℚ) (h : st.pitches ≠ []) :
    getPitchFrom12Edo st v false
      = st.pitches.getD (max 0 (min (st.numNegativeVoltages + cppRound (v * 12))
          ((st.pitches.length : ℤ) - 1))).toNat default ∧
    (0 ≤ st.numNegativeVoltages + cppRound (v * 12) →
      st.numNegativeVoltages + cppRound (v * 12) < (st.pitches.length : ℤ) →
      getPitchFrom12Edo st v true
        = getPitchByProximity st
            (st.pitches.getD (max 0 (min (st.numNegativeVoltages + cppRound (v * 12))
                ((st.pitches.length : ℤ) - 1))).toNat default).voltage true) ∧
    (¬(0 ≤ st.numNegativeVoltages + cppRound (v * 12) ∧
        st.numNegativeVoltages + cppRound (v * 12) < (st.pitches.length : ℤ)) →
      getPitchFrom12Edo st v true
        = st.pitches.getD (max 0 (min (st.numNegativeVoltages + cppRound (v * 12))
            ((st.pitches.length : ℤ) - 1))).toNat default) := by
  have hlen : 0 < st.pitches.length := List.length_pos.mpr h
  have hemp : st.pitches.isEmpty = false := by
    simpa [List.isEmpty_iff] using h
  set i : ℤ := st.numNegativeVoltages + cppRound (v * 12) with hidef
  refine ⟨?_, ?_, ?_⟩
  · simp only [getPitchFrom12Edo, hemp, Bool.false_eq_true, if_false]
    by_cases h1 : i < 0
    · rw [if_pos h1, headD_eq_getD]
      congr 1
      omega
    · rw [if_neg h1]
      by_cases h2 : (st.pitches.length : ℤ) ≤ i
      · rw [if_pos h2, getLastD_eq_getD]
        congr 1
        omega
      · rw [if_neg h2]
        congr 1
        omega
  · intro h0 h1
    simp only [getPitchFrom12Edo, hemp, Bool.false_eq_true, if_false]
    rw [if_neg (by omega : ¬i < 0), if_neg (by omega : ¬(st.pitches.length : ℤ) ≤ i)]
    have hclamp : max 0 (min i ((st.pitches.length : ℤ) - 1)) = i := by omega
    rw [hclamp]
    simp
  · intro hnot
    simp only [getPitchFrom12Edo, hemp, Bool.false_eq_true, if_false]
    by_cases h1 : i < 0
    · rw [if_pos h1, headD_eq_getD]
      congr 1
      omega
    · have h2 : (st.pitches.length : ℤ) ≤ i := by
        rcases not_and_or.mp hnot with h | h
        · omega
        · omega
      rw [if_neg h1, if_pos h2, getLastD_eq_getD]
      congr 1
      omega

/-- C3 witness: the one-step tuning at 0 V - the 12-EDO index 4 is in
range, both stages evaluated. -/
theorem twelveEdo_two_stage_witness :
    (stOne.pitches ≠ []) ∧
    (getPitchFrom12Edo stOne 0 false
      = stOne.pitches.getD (max 0 (min (stOne.numNegativeVoltages + cppRound (0 * 12))
          ((stOne.pitches.length : ℤ) - 1))).toNat default ∧
    (0 ≤ stOne.numNegativeVoltages + cppRound (0 * 12) →
      stOne.numNegativeVoltages + cppRound (0 * 12) < (stOne.pitches.length : ℤ) →
      getPitchFrom12Edo stOne 0 true
        = getPitchByProximity stOne
            (stOne.pitches.getD (max 0 (min (stOne.numNegativeVoltages + cppRound (0 * 12))
                ((stOne.pitches.length : ℤ) - 1))).toNat default).voltage true) ∧
    (¬(0 ≤ stOne.numNegativeVoltages + cppRound (0 * 12) ∧
        stOne.numNegativeVoltages + cppRound (0 * 12) < (stOne.pitches.length : ℤ)) →
      getPitchFrom12Edo stOne 0 true
        = stOne.pitches.getD (max 0 (min (stOne.numNegativeVoltages + cppRound (0 * 12))
            ((stOne.pitches.length : ℤ) - 1))).toNat default)) := by
  have h : stOne.pitches ≠ [] := by rw [stOne_eval]; simp
  exact ⟨h, twelveEdo_two_stage stOne 0 h⟩

/-- C3 counterexample: on `stHalf` at -10 V the unclamped 12-EDO index is
negative, and the returned step is the raw first full-table entry (a
disabled step), not its Proximity re-quantization against the enabled
table as the claim states. -/
theorem twelveEdo_two_stage_counterexample :
    getPitchFrom12Edo stHalf (-10) true
      ≠ getPitchByProximity stHalf (stHalf.pitches.headD default).voltage true := by
  rw [stHalf_eval]
  norm_num [getPitchFrom12Edo, getPitchByProximity, selectedTable, cppRound,
    emptySentinel, List.findIdx_cons]

/-! ## C5: the empty-table fallback -/

/-- C5 (amended): an empty selected table yields the sentinel
`{0 V, last scale index}` in Proximity and Proportional mode and in 12-EDO
mode with `useEnabled = false`; in 12-EDO mode with `useEnabled = true`
the sentinel is produced when the full table is empty or when the 12-EDO
index is in range (the second-stage Proximity lookup then meets the empty
enabled table), but an out-of-range index returns the first or last
full-table entry instead. -/
theorem emptyTable_fallback (st : State) (v : ℚ) (mode : MappingMode) (enabled : Bool)
    (hsel : selectedTable st enabled = []) :
    ((mode = .twelveEdoInput ∧ enabled = true) →
      (st.pitches = [] → quantizePitch st v mode enabled = emptySentinel st) ∧
      (st.pitches ≠ [] →
        (st.numNegativeVoltages + cppRound (v * 12) < 0 →
          quantizePitch st v mode enabled = st.pitches.headD default) ∧
        ((st.pitches.length : ℤ) ≤ st.numNegativeVoltages + cppRound (v * 12) →
          quantizePitch st v mode enabled = st.pitches.getLastD default) ∧
        (0 ≤ st.numNegativeVoltages + cppRound (v * 12) →
          st.numNegativeVoltages + cppRound (v * 12) < (st.pitches.length : ℤ) →
          quantizePitch st v mode enabled = emptySentinel st))) ∧
    (¬(mode = .twelveEdoInput ∧ enabled = true) →
      quantizePitch st v mode enabled = emptySentinel st) := by
  cases mode
  case proximity =>
    cases enabled
    · have hsel' : st.pitches = [] := by simpa [selectedTable] using hsel
      exact ⟨fun h => absurd h.1 (by decide),
        fun _ => by simp [quantizePitch, getPitchByProximity, selectedTable, hsel']⟩
    · have hsel' : st.enabledPitches = [] := by simpa [selectedTable] using hsel
      exact ⟨fun h => absurd h.1 (by decide),
        fun _ => by simp [quantizePitch, getPitchByProximity, selectedTable, hsel']⟩
  case proportional =>
    cases enabled
    · have hsel' : st.pitches = [] := by simpa [selectedTable] using hsel
      exact ⟨fun h => absurd h.1 (by decide),
        fun _ => by simp [quantizePitch, getPitchProportional, selectedTable, hsel']⟩
    · have hsel' : st.enabledPitches = [] := by simpa [selectedTable] using hsel
      exact ⟨fun h => absurd h.1 (by decide),
        fun _ => by simp [quantizePitch, getPitchProportional, selectedTable, hsel']⟩
  case twelveEdoInput =>
    cases enabled
    · have hsel' : st.pitches = [] := by simpa [selectedTable] using hsel
      exact ⟨fun h => absurd h.2 (by decide),
        fun _ => by simp [quantizePitch, getPitchFrom12Edo, hsel']⟩
    · have hsel' : st.enabledPitches = [] := by simpa [selectedTable] using hsel
      refine ⟨fun _ => ?_, fun h => absurd ⟨rfl, rfl⟩ h⟩
      refine ⟨fun hfull => by simp [quantizePitch, getPitchFrom12Edo, hfull], fun hfull => ?_⟩
      have hemp : st.pitches.isEmpty = false := by simpa [List.isEmpty_iff] using hfull
      refine ⟨fun h1 => ?_, fun h2 => ?_, fun h0 h1 => ?_⟩
      · simp only [quantizePitch, getPitchFrom12Edo, hemp, Bool.false_eq_true, if_false]
        rw [if_pos h1]
      · simp only [quantizePitch, getPitchFrom12Edo, hemp, Bool.false_eq_true, if_false]
        rw [if_neg (by omega), if_pos h2]
      · simp only [quantizePitch, getPitchFrom12Edo, hemp, Bool.false_eq_true, if_false]
        rw [if_neg (by omega), if_neg (by omega)]
        simp [getPitchByProximity, selectedTable, hsel']

/-- C5 witness: the disabled one-step tuning in Proximity mode. -/
theorem emptyTable_fallback_witness :
    (selectedTable stOneOff true = []) ∧
    (((MappingMode.proximity = .twelveEdoInput ∧ true = true) →
      (stOneOff.pitches = [] →
        quantizePitch stOneOff 0 .proximity true = emptySentinel stOneOff) ∧
      (stOneOff.pitches ≠ [] →
        (stOneOff.numNegativeVoltages + cppRound (0 * 12) < 0 →
          quantizePitch stOneOff 0 .proximity true = stOneOff.pitches.headD default) ∧
        ((stOneOff.pitches.length : ℤ) ≤ stOneOff.numNegativeVoltages + cppRound (0 * 12) →
          quantizePitch stOneOff 0 .proximity true = stOneOff.pitches.getLastD default) ∧
        (0 ≤ stOneOff.numNegativeVoltages + cppRound (0 * 12) →
          stOneOff.numNegativeVoltages + cppRound (0 * 12) < (stOneOff.pitches.length : ℤ) →
          quantizePitch stOneOff 0 .proximity true = emptySentinel stOneOff))) ∧
    (¬(MappingMode.proximity = .twelveEdoInput ∧ true = true) →
      quantizePitch stOneOff 0 .proximity true = emptySentinel stOneOff)) := by
  have h : selectedTable stOneOff true = [] := by rw [stOneOff_eval]; rfl
  exact ⟨h, emptyTable_fallback stOneOff 0 .proximity true h⟩

/-- C5 counterexample: with all steps disabled (empty enabled table) the
12-EDO mapping with `useEnabled = true` at -10 V returns the first
full-table entry (-4 V), not the sentinel the claim promises for every
mapping mode. -/
theorem emptyTable_fallback_counterexample :
    selectedTable stOneOff true = [] ∧
    quantizePitch stOneOff (-10) .twelveEdoInput true ≠ emptySentinel stOneOff := by
  rw [stOneOff_eval]
  constructor
  · rfl
  · norm_num [quantizePitch, getPitchFrom12Edo, emptySentinel, cppRound, selectedTable]

/-! ## C6: parse failure leaves the committed state alone -/

/-- C6 (amended): a failed tuning-file load leaves the committed scale, the
tables and the tuning name unchanged, discards the staged content and sets
the error flag - but the change-requested flag is still set by
pathSelected, so the next control tick re-commits (a no-op rebuild of the
unchanged scale) rather than skipping the checkpoint. -/
theorem parseFailure_state (st : State) (p parentDir : String) :
    (pathSelected st (some p) none parentDir).scale = st.scale ∧
    (pathSelected st (some p) none parentDir).newScale = [] ∧
    (pathSelected st (some p) none parentDir).tuningName = st.tuningName ∧
    (pathSelected st (some p) none parentDir).error = true ∧
    (pathSelected st (some p) none parentDir).tuningChangeRequested = true ∧
    (pathSelected st (some p) none parentDir).pitches = st.pitches ∧
    (pathSelected st (some p) none parentDir).enabledPitches = st.enabledPitches ∧
    (pathSelected st (some p) none parentDir).backupScale = st.backupScale := by
  simp [pathSelected, updateScale]

/-- C6 counterexample: after a failed load the module is in the error
display state and nevertheless has the change-requested flag set, refuting
the claim's "Error rather than ChangeRequested". -/
theorem parseFailure_counterexample :
    (pathSelected stOne (some "bad.scl") none "dir").error = true ∧
    (pathSelected stOne (some "bad.scl") none "dir").tuningChangeRequested = true := by
  exact ⟨rfl, rfl⟩

/-! ## C9: the concrete 12-EDO proximity scenario -/

/-- C9 (amended): Proximity-quantizing 0.05 V on the default 12-step equal
tuning returns the entry at voltage 1/12, whose originating scale index is
0 (the 100-cent step is the scala file's first value), not 1. -/
theorem default_proximity_scenario :
    getPitchByProximity defaultCommitted (1 / 20) true = ⟨1 / 12, 0⟩ :=
  default_proximity_eval

/-- C9 counterexample: the scale index of the returned entry is not 1 as
the claim states. -/
theorem default_proximity_scenario_counterexample :
    (getPitchByProximity defaultCommitted (1 / 20) true).scaleIndex ≠ 1 := by
  rw [default_proximity_eval]
  decide

/-! ## C4: which mutation requests stage and which mutate in place -/

/-- C4 (amended): reset, file-load success and persisted-state load stage
their new content in `newScale`, leaving the live scale and both tables
untouched until the commit checkpoint, which installs a non-empty staged
scale, rebuilds the tables from the new live scale and clears the request
flag. Randomize however mutates the live scale's enabled flags in place
(deferring only the rebuild), and a manual step toggle and a scale-learner
update mutate the live scale and rebuild both tables at their own tick. -/
theorem mutation_staging (st : State) (coins : ℕ → ℕ) (p dir : String)
    (tones : List ℚ) (js : Option (List ScaleStep)) (jd jn : Option String)
    (ji jc : Option MappingMode) (pos : ℕ) (volts : List ℚ) :
    ((onReset st).scale = st.scale ∧ (onReset st).pitches = st.pitches ∧
      (onReset st).enabledPitches = st.enabledPitches ∧
      (onReset st).newScale = twelveEdoScale ∧
      (onReset st).tuningChangeRequested = true) ∧
    ((pathSelected st (some p) (some tones) dir).scale = st.scale ∧
      (pathSelected st (some p) (some tones) dir).pitches = st.pitches ∧
      (pathSelected st (some p) (some tones) dir).enabledPitches = st.enabledPitches ∧
      (pathSelected st (some p) (some tones) dir).tuningChangeRequested = true) ∧
    ((dataFromJson st js jd jn ji jc).scale = st.scale ∧
      (dataFromJson st js jd jn ji jc).pitches = st.pitches ∧
      (dataFromJson st js jd jn ji jc).enabledPitches = st.enabledPitches ∧
      (dataFromJson st js jd jn ji jc).tuningChangeRequested = true) ∧
    ((commitStep st).scale
        = (if st.tuningChangeRequested = true ∧ st.newScale ≠ [] then st.newScale
           else st.scale) ∧
      (commitStep st).newScale = (if st.tuningChangeRequested = true then [] else st.newScale) ∧
      (commitStep st).tuningChangeRequested = false ∧
      (st.tuningChangeRequested = false → commitStep st = st) ∧
      (st.tuningChangeRequested = true →
        (commitStep st).pitches
          = (updateTuning { st with scale := (commitStep st).scale }).pitches ∧
        (commitStep st).enabledPitches
          = (updateTuning { st with scale := (commitStep st).scale }).enabledPitches)) ∧
    ((onRandomize st coins).scale.map (·.cents) = st.scale.map (·.cents) ∧
      (onRandomize st coins).pitches = st.pitches ∧
      (onRandomize st coins).enabledPitches = st.enabledPitches ∧
      (onRandomize st coins).newScale = st.newScale ∧
      (onRandomize st coins).tuningChangeRequested = true) ∧
    ((toggleStep st pos).scale.map (·.cents) = st.scale.map (·.cents) ∧
      (toggleStep st pos).newScale = st.newScale ∧
      (toggleStep st pos).pitches
        = (updateTuning { st with scale := (toggleStep st pos).scale }).pitches) ∧
    (volts ≠ st.prevInputVolts →
      ∀ st' ∈ cvScanStep st volts,
        st'.newScale = st.newScale ∧
        st'.pitches = (updateTuning { st with scale := st'.scale }).pitches) := by
  refine ⟨?_, ?_, ?_, ?_, ?_, ?_, ?_⟩
  · simp [onReset]
  · simp [pathSelected, updateScale]
  · cases js <;> simp [dataFromJson]
  · by_cases htcr : st.tuningChangeRequested
    · by_cases hnew : st.newScale.isEmpty
      · have h0 : st.newScale = [] := by simpa [List.isEmpty_iff] using hnew
        simp only [commitStep, htcr, if_true, hnew, h0, updateTuning]
        simp [htcr, h0]
      · have h0 : st.newScale ≠ [] := by simpa [List.isEmpty_iff] using hnew
        simp only [commitStep, htcr, if_true, hnew, Bool.false_eq_true, if_false]
        refine ⟨by simp [updateTuning, htcr, h0], by simp [updateTuning, htcr], by simp, ?_, ?_⟩
        · intro hfalse
          simp at hfalse
        · intro _
          constructor
          · exact (updateTuning_congr (by simp [updateTuning])).1
          · exact (updateTuning_congr (by simp [updateTuning])).2.1
    · have h0 : st.tuningChangeRequested = false := by simpa using htcr
      simp [commitStep, h0]
  · refine ⟨mapIdx_map_cents st.scale _, ?_, ?_, ?_, ?_⟩ <;> simp [onRandomize]
  · refine ⟨set_map_cents st.scale pos _, ?_, ?_⟩
    · simp [toggleStep, updateTuning]
    · exact (updateTuning_congr (by simp [toggleStep, updateTuning])).1
  · intro hvolts st' hmem
    simp only [cvScanStep, if_pos hvolts, Option.mem_def, Option.map_eq_some'] at hmem
    obtain ⟨sc, hsc, rfl⟩ := hmem
    constructor
    · simp [updateTuning]
    · exact (updateTuning_congr (by simp [updateTuning])).1

/-- C4 counterexample: randomize rewrites the live scale in place - on the
one-step scale with the coin 99 the step's enabled flag flips immediately,
before any commit checkpoint. -/
theorem mutation_staging_counterexample :
    (onRandomize stOneOff fun _ => 99).scale ≠ stOneOff.scale := by
  rw [stOneOff_eval]
  simp [onRandomize]

/-! ## C1: proximity quantization returns a nearest entry, ties upward -/

/-- On a non-empty selected table the proximity quantizer is the
lower-bound/predecessor comparison written with `getD`. -/
theorem getPitchByProximity_eq (st : State) (v : ℚ) (enabled : Bool)
    (hne : selectedTable st enabled ≠ []) :
    getPitchByProximity st v enabled =
      (if (selectedTable st enabled).findIdx (fun step => !decide (step.voltage < v)) = 0 then
        (selectedTable st enabled).getD 0 default
      else if (selectedTable st enabled).findIdx (fun step => !decide (step.voltage < v))
          = (selectedTable st enabled).length then
        (selectedTable st enabled).getD ((selectedTable st enabled).length - 1) default
      else if v - ((selectedTable st enabled).getD
            ((selectedTable st enabled).findIdx (fun step => !decide (step.voltage < v)) - 1)
            default).voltage
          < ((selectedTable st enabled).getD
            ((selectedTable st enabled).findIdx (fun step => !decide (step.voltage < v)))
            default).voltage - v then
        (selectedTable st enabled).getD
          ((selectedTable st enabled).findIdx (fun step => !decide (step.voltage < v)) - 1)
          default
      else
        (selectedTable st enabled).getD
          ((selectedTable st enabled).findIdx (fun step => !decide (step.voltage < v)))
          default) := by
  have hemp : (selectedTable st enabled).isEmpty = false := by
    simpa [List.isEmpty_iff] using hne
  simp only [getPitchByProximity, hemp, Bool.false_eq_true, if_false, headD_eq_getD,
    getLastD_eq_getD]

/-- C1: on a non-empty, strictly-ascending selected table the proximity
quantizer returns a table entry at minimal distance `|entry.voltage - v|`,
and at an exact midpoint between two consecutive entries it returns the
upper one. -/
theorem proximity_nearest (st : State) (enabled : Bool) (v : ℚ)
    (hne : selectedTable st enabled ≠ [])
    (hsort : List.Chain' (fun a b => a.voltage < b.voltage) (selectedTable st enabled)) :
    getPitchByProximity st v enabled ∈ selectedTable st enabled ∧
    (∀ s ∈ selectedTable st enabled,
      |(getPitchByProximity st v enabled).voltage - v| ≤ |s.voltage - v|) ∧
    (∀ k : ℕ, k + 1 < (selectedTable st enabled).length →
      v = (((selectedTable st enabled).getD k default).voltage
          + ((selectedTable st enabled).getD (k + 1) default).voltage) / 2 →
      getPitchByProximity st v enabled = (selectedTable st enabled).getD (k + 1) default) := by
  letI : IsTrans TuningStep (fun a b => a.voltage < b.voltage) :=
    ⟨fun _ _ _ h1 h2 => lt_trans h1 h2⟩
  set pl := selectedTable st enabled with hpl
  have hlen : 0 < pl.length := List.length_pos.mpr hne
  have hpw := List.chain'_iff_pairwise.mp hsort
  have hgetD : ∀ m : ℕ, (hm : m < pl.length) → pl.getD m default = pl[m] := by
    intro m hm
    rw [List.getD_eq_getElem?_getD, List.getElem?_eq_getElem hm]
    rfl
  have hmono : ∀ m1 m2 : ℕ, m1 < pl.length → m2 < pl.length → m1 < m2 →
      (pl.getD m1 default).voltage < (pl.getD m2 default).voltage := by
    intro m1 m2 h1 h2 hlt
    rw [hgetD m1 h1, hgetD m2 h2]
    exact List.pairwise_iff_getElem.mp hpw m1 m2 h1 h2 hlt
  have hmono' : ∀ m1 m2 : ℕ, m1 < pl.length → m2 < pl.length → m1 ≤ m2 →
      (pl.getD m1 default).voltage ≤ (pl.getD m2 default).voltage := by
    intro m1 m2 h1 h2 hle
    rcases Nat.lt_or_ge m1 m2 with h | h
    · exact le_of_lt (hmono m1 m2 h1 h2 h)
    · have heq : m1 = m2 := by omega
      subst heq
      exact le_refl _
  set p : TuningStep → Bool := fun step => !decide (step.voltage < v) with hp
  have hplow : ∀ m : ℕ, m < pl.length → m < pl.findIdx p →
      (pl.getD m default).voltage < v := by
    intro m hm hmi
    rw [hgetD m hm]
    have h3 := List.not_of_lt_findIdx hmi
    have h4 : (!decide ((pl[m]).voltage < v)) = false := h3
    simpa using h4
  have hphigh : pl.findIdx p < pl.length →
      v ≤ (pl.getD (pl.findIdx p) default).voltage := by
    intro hil
    rw [hgetD _ hil]
    have h3 := List.findIdx_getElem (w := hil)
    have h4 : (!decide ((pl[pl.findIdx p]).voltage < v)) = true := h3
    exact le_of_not_lt (by simpa using h4)
  have hfle : pl.findIdx p ≤ pl.length := List.findIdx_le_length p
  rw [getPitchByProximity_eq st v enabled hne]
  rw [← hpl, ← hp]
  generalize hifold : pl.findIdx p = i
  rw [hifold] at hplow hphigh hfle
  refine ⟨?_, ?_, ?_⟩
  · -- membership
    by_cases h0 : i = 0
    · rw [if_pos h0, hgetD 0 hlen]
      exact List.getElem_mem _
    · rw [if_neg h0]
      by_cases h1 : i = pl.length
      · rw [if_pos h1, hgetD (pl.length - 1) (by omega)]
        exact List.getElem_mem _
      · have hil : i < pl.length := by omega
        rw [if_neg h1]
        by_cases hc : v - (pl.getD (i - 1) default).voltage
            < (pl.getD i default).voltage - v
        · rw [if_pos hc, hgetD (i - 1) (by omega)]
          exact List.getElem_mem _
        · rw [if_neg hc, hgetD i hil]
          exact List.getElem_mem _
  · -- minimality
    intro s hs
    obtain ⟨m, hm, rfl⟩ := List.getElem_of_mem hs
    rw [← hgetD m hm]
    by_cases h0 : i = 0
    · rw [if_pos h0]
      have hv0 : v ≤ (pl.getD 0 default).voltage := by
        have h5 := hphigh (by omega)
        rwa [h0] at h5
      have h0m : (pl.getD 0 default).voltage ≤ (pl.getD m default).voltage :=
        hmono' 0 m hlen hm (Nat.zero_le m)
      rw [abs_of_nonneg (by linarith), abs_of_nonneg (by linarith)]
      linarith
    · rw [if_neg h0]
      by_cases h1 : i = pl.length
      · rw [if_pos h1]
        have hvm : (pl.getD m default).voltage < v := hplow m hm (by omega)
        have hvlast : (pl.getD (pl.length - 1) default).voltage < v :=
          hplow _ (by omega) (by omega)
        have hlastm : (pl.getD m default).voltage
            ≤ (pl.getD (pl.length - 1) default).voltage :=
          hmono' m _ hm (by omega) (by omega)
        rw [abs_of_nonpos (by linarith), abs_of_nonpos (by linarith)]
        linarith
      · have hil : i < pl.length := by omega
        have hi0 : 0 < i := Nat.pos_of_ne_zero h0
        have hfv : (pl.getD (i - 1) default).voltage < v := hplow (i - 1) (by omega) (by omega)
        have hcv : v ≤ (pl.getD i default).voltage := hphigh hil
        rw [if_neg h1]
        have hcases : m ≤ i - 1 ∨ i ≤ m := by omega
        by_cases hc : v - (pl.getD (i - 1) default).voltage
            < (pl.getD i default).voltage - v
        · rw [if_pos hc, abs_of_nonpos (by linarith)]
          rcases hcases with hmc | hmc
          · have hsm : (pl.getD m default).voltage ≤ (pl.getD (i - 1) default).voltage :=
              hmono' m (i - 1) hm (by omega) hmc
            rw [abs_of_nonpos (by linarith)]
            linarith
          · have hsm : (pl.getD i default).voltage ≤ (pl.getD m default).voltage :=
              hmono' i m hil hm hmc
            rw [abs_of_nonneg (by linarith)]
            linarith
        · rw [if_neg hc, abs_of_nonneg (by linarith)]
          push_neg at hc
          rcases hcases with hmc | hmc
          · have hsm : (pl.getD m default).voltage ≤ (pl.getD (i - 1) default).voltage :=
              hmono' m (i - 1) hm (by omega) hmc
            rw [abs_of_nonpos (by linarith)]
            linarith
          · have hsm : (pl.getD i default).voltage ≤ (pl.getD m default).voltage :=
              hmono' i m hil hm hmc
            rw [abs_of_nonneg (by linarith)]
            linarith
  · -- tie-break: exact midpoints go to the upper entry
    intro k hk hv
    have hab : (pl.getD k default).voltage < (pl.getD (k + 1) default).voltage :=
      hmono k (k + 1) (by omega) hk (by omega)
    have hka : (pl.getD k default).voltage < v := by rw [hv]; linarith
    have hkb : v < (pl.getD (k + 1) default).voltage := by rw [hv]; linarith
    have hle : i ≤ k + 1 := by
      by_contra hgt
      have := hplow (k + 1) hk (by omega)
      linarith
    have hge : k + 1 ≤ i := by
      by_contra hlt
      have h5 := hphigh (by omega)
      have h6 : (pl.getD i default).voltage ≤ (pl.getD k default).voltage :=
        hmono' i k (by omega) (by omega) (by omega)
      linarith
    have hik : i = k + 1 := by omega
    rw [if_neg (by omega : ¬i = 0), if_neg (by omega : ¬i = pl.length), hik]
    have hidx : k + 1 - 1 = k := by omega
    rw [hidx, if_neg (not_lt.mpr (by rw [hv]; linarith))]

/-- C1 witness: the one-step table (integral voltages) at the exact
midpoint 1/2 between 0 and 1; the upper entry 1 V is returned. -/
theorem proximity_nearest_witness :
    (selectedTable stOne true ≠ [] ∧
      List.Chain' (fun a b => a.voltage < b.voltage) (selectedTable stOne true)) ∧
    (getPitchByProximity stOne (1 / 2) true ∈ selectedTable stOne true ∧
    (∀ s ∈ selectedTable stOne true,
      |(getPitchByProximity stOne (1 / 2) true).voltage - 1 / 2| ≤ |s.voltage - 1 / 2|) ∧
    (∀ k : ℕ, k + 1 < (selectedTable stOne true).length →
      (1 : ℚ) / 2 = (((selectedTable stOne true).getD k default).voltage
          + ((selectedTable stOne true).getD (k + 1) default).voltage) / 2 →
      getPitchByProximity stOne (1 / 2) true
        = (selectedTable stOne true).getD (k + 1) default)) := by
  have h1 : selectedTable stOne true ≠ [] := by
    rw [stOne_eval]
    simp [selectedTable]
  have h2 : List.Chain' (fun a b => a.voltage < b.voltage) (selectedTable stOne true) := by
    rw [stOne_eval]
    norm_num [selectedTable, List.chain'_cons]
  exact ⟨⟨h1, h2⟩, proximity_nearest stOne true (1 / 2) h1 h2⟩

/-! ## C2 and C8: shape of the rebuilt tables -/

/-- Under strictly increasing cents every step's cents is at most the last
step's (the period). -/
theorem cents_le_getLastD :
    ∀ (l : List ScaleStep), List.Chain' (fun a b => a.cents < b.cents) l →
      ∀ (d : ScaleStep), ∀ s ∈ l, s.cents ≤ (l.getLastD d).cents := by
  intro l
  induction l with
  | nil =>
    intro _ d s hs
    simp at hs
  | cons a t ih =>
    intro hchain d s hs
    rw [List.getLastD_cons]
    rcases List.chain'_cons'.mp hchain with ⟨hhead, htail⟩
    rcases List.mem_cons.mp hs with rfl | hs
    · cases t with
      | nil => exact le_refl _
      | cons b t' =>
        have hab : s.cents < b.cents := hhead b rfl
        have hb : b.cents ≤ ((b :: t').getLastD s).cents :=
          ih htail s b (List.mem_cons_self b t')
        linarith
    · exact ih htail a s hs

/-- A non-empty list contains its getLastD. -/
theorem getLastD_mem {α : Type} {l : List α} (h : l ≠ []) (d : α) : l.getLastD d ∈ l := by
  rw [List.getLastD_eq_getLast?, List.getLast?_eq_getLast l h]
  exact List.getLast_mem h

/-- Forward-pass entries respect the MAX_VOLT guard. -/
theorem fwdPassGo_le_max :
    ∀ (l : List ScaleStep) (off : ℚ) (i : ℤ) (e : TuningStep × Bool),
      e ∈ (fwdPassGo off i l).1 → e.1.voltage ≤ MAX_VOLT := by
  intro l
  induction l with
  | nil =>
    intro off i e he
    simp [fwdPassGo] at he
  | cons s rest ih =>
    intro off i e he
    simp only [fwdPassGo] at he
    by_cases h : off + s.cents / 1200 ≤ MAX_VOLT
    · rw [if_pos h] at he
      rcases List.mem_cons.mp he with rfl | he
      · exact h
      · exact ih off (i + 1) e he
    · rw [if_neg h] at he
      simp at he

/-- Forward-pass entries lie strictly above the pass offset when all cents
are positive. -/
theorem fwdPassGo_gt_off :
    ∀ (l : List ScaleStep) (off : ℚ) (i : ℤ) (e : TuningStep × Bool),
      (∀ s ∈ l, 0 < s.cents) → e ∈ (fwdPassGo off i l).1 → off < e.1.voltage := by
  intro l
  induction l with
  | nil =>
    intro off i e _ he
    simp [fwdPassGo] at he
  | cons s rest ih =>
    intro off i e hpos he
    simp only [fwdPassGo] at he
    by_cases h : off + s.cents / 1200 ≤ MAX_VOLT
    · rw [if_pos h] at he
      rcases List.mem_cons.mp he with rfl | he
      · have hc : 0 < s.cents := hpos s (List.mem_cons_self s rest)
        have h0 : (0 : ℚ) < s.cents / 1200 := by positivity
        simp only
        linarith
      · exact ih off (i + 1) e (fun x hx => hpos x (List.mem_cons_of_mem s hx)) he
    · rw [if_neg h] at he
      simp at he

/-- Forward-pass entries lie at most one period above the pass offset when
all cents are bounded by the period. -/
theorem fwdPassGo_le_offP (P : ℚ) :
    ∀ (l : List ScaleStep) (off : ℚ) (i : ℤ) (e : TuningStep × Bool),
      (∀ s ∈ l, s.cents ≤ P) → e ∈ (fwdPassGo off i l).1 →
      e.1.voltage ≤ off + P / 1200 := by
  intro l
  induction l with
  | nil =>
    intro off i e _ he
    simp [fwdPassGo] at he
  | cons s rest ih =>
    intro off i e hle he
    simp only [fwdPassGo] at he
    by_cases h : off + s.cents / 1200 ≤ MAX_VOLT
    · rw [if_pos h] at he
      rcases List.mem_cons.mp he with rfl | he
      · have hc : s.cents ≤ P := hle s (List.mem_cons_self s rest)
        have hd : (0 : ℚ) ≤ (P - s.cents) / 1200 := div_nonneg (by linarith) (by norm_num)
        rw [sub_div] at hd
        simp only
        linarith
      · exact ih off (i + 1) e (fun x hx => hle x (List.mem_cons_of_mem s hx)) he
    · rw [if_neg h] at he
      simp at he

/-- Forward-pass entries are strictly ascending when the cents are. -/
theorem fwdPassGo_chain :
    ∀ (l : List ScaleStep) (off : ℚ) (i : ℤ),
      List.Chain' (fun a b => a.cents < b.cents) l →
      List.Chain' (fun e1 e2 : TuningStep × Bool => e1.1.voltage < e2.1.voltage)
        (fwdPassGo off i l).1 := by
  intro l
  induction l with
  | nil =>
    intro off i _
    simp [fwdPassGo]
  | cons s rest ih =>
    intro off i hchain
    rcases List.chain'_cons'.mp hchain with ⟨hhead, htail⟩
    simp only [fwdPassGo]
    by_cases h : off + s.cents / 1200 ≤ MAX_VOLT
    · rw [if_pos h]
      rw [List.chain'_cons']
      refine ⟨?_, ih off (i + 1) htail⟩
      intro y hy
      cases rest with
      | nil => simp [fwdPassGo] at hy
      | cons b t' =>
        simp only [fwdPassGo] at hy
        by_cases hb : off + b.cents / 1200 ≤ MAX_VOLT
        · rw [if_pos hb] at hy
          simp only [List.head?_cons, Option.mem_def, Option.some.injEq] at hy
          subst hy
          have hsb : s.cents < b.cents := hhead b rfl
          have h0 : (0 : ℚ) < (b.cents - s.cents) / 1200 := div_pos (by linarith) (by norm_num)
          rw [sub_div] at h0
          simp only
          linarith
        · rw [if_neg hb] at hy
          simp at hy
    · rw [if_neg h]
      simp

/-- Forward-loop entries lie strictly above the loop's starting offset. -/
theorem fwdLoop_gt_off (scale : List ScaleStep) (P : ℚ) (hP : 0 < P)
    (hpos : ∀ s ∈ scale, 0 < s.cents) :
    ∀ (fuel : ℕ) (off : ℚ) (e : TuningStep × Bool),
      e ∈ fwdLoop scale P fuel off → off < e.1.voltage := by
  intro fuel
  induction fuel with
  | zero =>
    intro off e he
    simp [fwdLoop] at he
  | succ fuel ih =>
    intro off e he
    simp only [fwdLoop] at he
    by_cases h : (fwdPassGo off 0 scale).2 = true
    · rw [if_pos h] at he
      exact fwdPassGo_gt_off scale off 0 e hpos he
    · rw [if_neg h] at he
      rcases List.mem_append.mp he with he | he
      · exact fwdPassGo_gt_off scale off 0 e hpos he
      · have h1 := ih (off + P / 1200) e he
        have hp12 : (0 : ℚ) < P / 1200 := by positivity
        linarith

/-- Forward-loop entries respect MAX_VOLT. -/
theorem fwdLoop_le_max (scale : List ScaleStep) (P : ℚ) :
    ∀ (fuel : ℕ) (off : ℚ) (e : TuningStep × Bool),
      e ∈ fwdLoop scale P fuel off → e.1.voltage ≤ MAX_VOLT := by
  intro fuel
  induction fuel with
  | zero =>
    intro off e he
    simp [fwdLoop] at he
  | succ fuel ih =>
    intro off e he
    simp only [fwdLoop] at he
    by_cases h : (fwdPassGo off 0 scale).2 = true
    · rw [if_pos h] at he
      exact fwdPassGo_le_max scale off 0 e he
    · rw [if_neg h] at he
      rcases List.mem_append.mp he with he | he
      · exact fwdPassGo_le_max scale off 0 e he
      · exact ih (off + P / 1200) e he

/-- The forward walk is strictly ascending in voltage. -/
theorem fwdLoop_chain (scale : List ScaleStep) (P : ℚ) (hP : 0 < P)
    (hchain : List.Chain' (fun a b => a.cents < b.cents) scale)
    (hpos : ∀ s ∈ scale, 0 < s.cents)
    (hle : ∀ s ∈ scale, s.cents ≤ P) :
    ∀ (fuel : ℕ) (off : ℚ),
      List.Chain' (fun e1 e2 : TuningStep × Bool => e1.1.voltage < e2.1.voltage)
        (fwdLoop scale P fuel off) := by
  intro fuel
  induction fuel with
  | zero =>
    intro off
    simp [fwdLoop]
  | succ fuel ih =>
    intro off
    simp only [fwdLoop]
    by_cases h : (fwdPassGo off 0 scale).2 = true
    · rw [if_pos h]
      exact fwdPassGo_chain scale off 0 hchain
    · rw [if_neg h]
      refine List.Chain'.append (fwdPassGo_chain scale off 0 hchain) (ih (off + P / 1200)) ?_
      intro x hx y hy
      have hxm : x ∈ (fwdPassGo off 0 scale).1 :=
        List.mem_of_getLast?_eq_some hx
      have hym : y ∈ fwdLoop scale P fuel (off + P / 1200) := by
        cases hl : fwdLoop scale P fuel (off + P / 1200) with
        | nil => rw [hl] at hy; simp at hy
        | cons z t =>
          rw [hl] at hy
          simp only [List.head?_cons, Option.mem_def, Option.some.injEq] at hy
          subst hy
          exact List.mem_cons_self _ _
      have h1 := fwdPassGo_le_offP P scale off 0 x hle hxm
      have h2 := fwdLoop_gt_off scale P hP hpos fuel (off + P / 1200) y hym
      linarith

/-- Backward-pass entries respect the MIN_VOLT guard. -/
theorem bwdPassGo_ge_min (P : ℚ) (n : ℕ) :
    ∀ (l : List ScaleStep) (off : ℚ) (j : ℕ) (e : TuningStep × Bool),
      e ∈ (bwdPassGo P off n j l).1 → MIN_VOLT ≤ e.1.voltage := by
  intro l
  induction l with
  | nil =>
    intro off j e he
    simp [bwdPassGo] at he
  | cons s rest ih =>
    intro off j e he
    simp only [bwdPassGo] at he
    by_cases h : MIN_VOLT ≤ off + (s.cents - P) / 1200
    · rw [if_pos h] at he
      rcases List.mem_cons.mp he with rfl | he
      · exact h
      · exact ih off (j + 1) e he
    · rw [if_neg h] at he
      simp at he

/-- Backward-pass entries lie at or below the pass offset when all cents
are bounded by the period. -/
theorem bwdPassGo_le_off (P : ℚ) (n : ℕ) :
    ∀ (l : List ScaleStep) (off : ℚ) (j : ℕ) (e : TuningStep × Bool),
      (∀ s ∈ l, s.cents ≤ P) → e ∈ (bwdPassGo P off n j l).1 → e.1.voltage ≤ off := by
  intro l
  induction l with
  | nil =>
    intro off j e _ he
    simp [bwdPassGo] at he
  | cons s rest ih =>
    intro off j e hle he
    simp only [bwdPassGo] at he
    by_cases h : MIN_VOLT ≤ off + (s.cents - P) / 1200
    · rw [if_pos h] at he
      rcases List.mem_cons.mp he with rfl | he
      · have hc : s.cents ≤ P := hle s (List.mem_cons_self s rest)
        have hd : (0 : ℚ) ≤ (P - s.cents) / 1200 := div_nonneg (by linarith) (by norm_num)
        rw [sub_div] at hd
        have h2 := sub_div s.cents P (1200 : ℚ)
        simp only
        linarith
      · exact ih off (j + 1) e (fun x hx => hle x (List.mem_cons_of_mem s hx)) he
    · rw [if_neg h] at he
      simp at he

/-- Backward-pass entries lie strictly below the pass offset when all
cents are strictly below the period. -/
theorem bwdPassGo_lt_off (P : ℚ) (n : ℕ) :
    ∀ (l : List ScaleStep) (off : ℚ) (j : ℕ) (e : TuningStep × Bool),
      (∀ s ∈ l, s.cents < P) → e ∈ (bwdPassGo P off n j l).1 → e.1.voltage < off := by
  intro l
  induction l with
  | nil =>
    intro off j e _ he
    simp [bwdPassGo] at he
  | cons s rest ih =>
    intro off j e hlt he
    simp only [bwdPassGo] at he
    by_cases h : MIN_VOLT ≤ off + (s.cents - P) / 1200
    · rw [if_pos h] at he
      rcases List.mem_cons.mp he with rfl | he
      · have hc : s.cents < P := hlt s (List.mem_cons_self s rest)
        have h0 : (0 : ℚ) < (P - s.cents) / 1200 := div_pos (by linarith) (by norm_num)
        rw [sub_div] at h0
        have h2 := sub_div s.cents P (1200 : ℚ)
        simp only
        linarith
      · exact ih off (j + 1) e (fun x hx => hlt x (List.mem_cons_of_mem s hx)) he
    · rw [if_neg h] at he
      simp at he

/-- Backward-pass entries lie strictly above `offset - period/1200` when
all cents are positive. -/
theorem bwdPassGo_gt (P : ℚ) (n : ℕ) :
    ∀ (l : List ScaleStep) (off : ℚ) (j : ℕ) (e : TuningStep × Bool),
      (∀ s ∈ l, 0 < s.cents) → e ∈ (bwdPassGo P off n j l).1 →
      off - P / 1200 < e.1.voltage := by
  intro l
  induction l with
  | nil =>
    intro off j e _ he
    simp [bwdPassGo] at he
  | cons s rest ih =>
    intro off j e hpos he
    simp only [bwdPassGo] at he
    by_cases h : MIN_VOLT ≤ off + (s.cents - P) / 1200
    · rw [if_pos h] at he
      rcases List.mem_cons.mp he with rfl | he
      · have hc : 0 < s.cents := hpos s (List.mem_cons_self s rest)
        have h0 : (0 : ℚ) < s.cents / 1200 := by positivity
        have h2 := sub_div s.cents P (1200 : ℚ)
        simp only
        linarith
      · exact ih off (j + 1) e (fun x hx => hpos x (List.mem_cons_of_mem s hx)) he
    · rw [if_neg h] at he
      simp at he

/-- Backward-pass entries are strictly descending in emission order when
the walked (reversed) scale has strictly descending cents. -/
theorem bwdPassGo_chain (P : ℚ) (n : ℕ) :
    ∀ (l : List ScaleStep) (off : ℚ) (j : ℕ),
      List.Chain' (fun a b => b.cents < a.cents) l →
      List.Chain' (fun e1 e2 : TuningStep × Bool => e2.1.voltage < e1.1.voltage)
        (bwdPassGo P off n j l).1 := by
  intro l
  induction l with
  | nil =>
    intro off j _
    simp [bwdPassGo]
  | cons s rest ih =>
    intro off j hchain
    rcases List.chain'_cons'.mp hchain with ⟨hhead, htail⟩
    simp only [bwdPassGo]
    by_cases h : MIN_VOLT ≤ off + (s.cents - P) / 1200
    · rw [if_pos h]
      rw [List.chain'_cons']
      refine ⟨?_, ih off (j + 1) htail⟩
      intro y hy
      cases rest with
      | nil => simp [bwdPassGo] at hy
      | cons b t' =>
        simp only [bwdPassGo] at hy
        by_cases hb : MIN_VOLT ≤ off + (b.cents - P) / 1200
        · rw [if_pos hb] at hy
          simp only [List.head?_cons, Option.mem_def, Option.some.injEq] at hy
          subst hy
          have hcb : b.cents < s.cents := hhead b rfl
          have h0 : (0 : ℚ) < (s.cents - b.cents) / 1200 := div_pos (by linarith) (by norm_num)
          rw [sub_div] at h0
          have h1 := sub_div s.cents P (1200 : ℚ)
          have h2 := sub_div b.cents P (1200 : ℚ)
          simp only
          linarith
        · rw [if_neg hb] at hy
          simp at hy
    · rw [if_neg h]
      simp

/-- Backward-loop entries respect MIN_VOLT. -/
theorem bwdLoop_ge_min (scale : List ScaleStep) (P : ℚ) (n : ℕ) :
    ∀ (fuel : ℕ) (off : ℚ) (e : TuningStep × Bool),
      e ∈ bwdLoop scale P n fuel off → MIN_VOLT ≤ e.1.voltage := by
  intro fuel
  induction fuel with
  | zero =>
    intro off e he
    simp [bwdLoop] at he
  | succ fuel ih =>
    intro off e he
    simp only [bwdLoop] at he
    by_cases h : (bwdPassGo P off n 0 scale.reverse).2 = true
    · rw [if_pos h] at he
      exact bwdPassGo_ge_min P n scale.reverse off 0 e (List.mem_reverse.mp he)
    · rw [if_neg h] at he
      rcases List.mem_append.mp he with he | he
      · exact ih (off - P / 1200) e he
      · exact bwdPassGo_ge_min P n scale.reverse off 0 e (List.mem_reverse.mp he)

/-- Backward-loop entries lie at or below the loop's starting offset. -/
theorem bwdLoop_le_off (scale : List ScaleStep) (P : ℚ) (n : ℕ) (hP : 0 < P)
    (hle : ∀ s ∈ scale, s.cents ≤ P) :
    ∀ (fuel : ℕ) (off : ℚ) (e : TuningStep × Bool),
      e ∈ bwdLoop scale P n fuel off → e.1.voltage ≤ off := by
  have hle' : ∀ s ∈ scale.reverse, s.cents ≤ P := by
    intro s hs
    exact hle s (List.mem_reverse.mp hs)
  intro fuel
  induction fuel with
  | zero =>
    intro off e he
    simp [bwdLoop] at he
  | succ fuel ih =>
    intro off e he
    simp only [bwdLoop] at he
    by_cases h : (bwdPassGo P off n 0 scale.reverse).2 = true
    · rw [if_pos h] at he
      exact bwdPassGo_le_off P n scale.reverse off 0 e hle' (List.mem_reverse.mp he)
    · rw [if_neg h] at he
      rcases List.mem_append.mp he with he | he
      · have h1 := ih (off - P / 1200) e he
        have hp12 : (0 : ℚ) < P / 1200 := by positivity
        linarith
      · exact bwdPassGo_le_off P n scale.reverse off 0 e hle' (List.mem_reverse.mp he)

/-- The backward walk is strictly ascending in voltage. -/
theorem bwdLoop_chain (scale : List ScaleStep) (P : ℚ) (n : ℕ) (hP : 0 < P)
    (hchain : List.Chain' (fun a b => a.cents < b.cents) scale)
    (hpos : ∀ s ∈ scale, 0 < s.cents)
    (hle : ∀ s ∈ scale, s.cents ≤ P) :
    ∀ (fuel : ℕ) (off : ℚ),
      List.Chain' (fun e1 e2 : TuningStep × Bool => e1.1.voltage < e2.1.voltage)
        (bwdLoop scale P n fuel off) := by
  have hchainrev : List.Chain' (fun a b => b.cents < a.cents) scale.reverse := by
    rw [List.chain'_reverse]
    exact hchain
  have hposrev : ∀ s ∈ scale.reverse, 0 < s.cents := by
    intro s hs
    exact hpos s (List.mem_reverse.mp hs)
  intro fuel
  induction fuel with
  | zero =>
    intro off
    simp [bwdLoop]
  | succ fuel ih =>
    intro off
    have hrevchain : List.Chain'
        (fun e1 e2 : TuningStep × Bool => e1.1.voltage < e2.1.voltage)
        (bwdPassGo P off n 0 scale.reverse).1.reverse := by
      rw [List.chain'_reverse]
      exact bwdPassGo_chain P n scale.reverse off 0 hchainrev
    simp only [bwdLoop]
    by_cases h : (bwdPassGo P off n 0 scale.reverse).2 = true
    · rw [if_pos h]
      exact hrevchain
    · rw [if_neg h]
      refine List.Chain'.append (ih (off - P / 1200)) hrevchain ?_
      intro x hx y hy
      have hxm : x ∈ bwdLoop scale P n fuel (off - P / 1200) :=
        List.mem_of_getLast?_eq_some hx
      have hym : y ∈ (bwdPassGo P off n 0 scale.reverse).1 := by
        cases hl : (bwdPassGo P off n 0 scale.reverse).1.reverse with
        | nil => rw [hl] at hy; simp at hy
        | cons z t =>
          rw [hl] at hy
          simp only [List.head?_cons, Option.mem_def, Option.some.injEq] at hy
          subst hy
          have hmem : z ∈ (bwdPassGo P off n 0 scale.reverse).1.reverse := by
            rw [hl]
            exact List.mem_cons_self _ _
          exact List.mem_reverse.mp hmem
      have h1 := bwdLoop_le_off scale P n hP hle fuel (off - P / 1200) x hxm
      have h2 := bwdPassGo_gt P n scale.reverse off 0 y hposrev hym
      linarith

/-- C2 (amended): for a committed scale with strictly increasing, strictly
positive cents, the rebuilt full table is strictly ascending in voltage
and every entry's voltage lies in [MIN_VOLT, MAX_VOLT] = [-4, 6]. -/
theorem fullTable_sorted_bounded (st : State) (hne : st.scale ≠ [])
    (hchain : List.Chain' (fun a b => a.cents < b.cents) st.scale)
    (hpos : ∀ s ∈ st.scale, 0 < s.cents) :
    List.Chain' (fun a b : TuningStep => a.voltage < b.voltage) (updateTuning st).pitches ∧
    ∀ e ∈ (updateTuning st).pitches, MIN_VOLT ≤ e.voltage ∧ e.voltage ≤ MAX_VOLT := by
  set P := (st.scale.getLastD default).cents with hP
  have hPpos : 0 < P := hpos _ (getLastD_mem hne default)
  have hPle : ∀ s ∈ st.scale, s.cents ≤ P := cents_le_getLastD st.scale hchain default
  constructor
  · show List.Chain' _ ((bwdLoop st.scale P st.scale.length (tuningFuel P) 0
        ++ fwdLoop st.scale P (tuningFuel P) 0).map Prod.fst)
    rw [List.chain'_map]
    refine List.Chain'.append
      (bwdLoop_chain st.scale P st.scale.length hPpos hchain hpos hPle (tuningFuel P) 0)
      (fwdLoop_chain st.scale P hPpos hchain hpos hPle (tuningFuel P) 0) ?_
    intro x hx y hy
    have hxm : x ∈ bwdLoop st.scale P st.scale.length (tuningFuel P) 0 :=
      List.mem_of_getLast?_eq_some hx
    have hym : y ∈ fwdLoop st.scale P (tuningFuel P) 0 := by
      cases hl : fwdLoop st.scale P (tuningFuel P) 0 with
      | nil => rw [hl] at hy; simp at hy
      | cons z t =>
        rw [hl] at hy
        simp only [List.head?_cons, Option.mem_def, Option.some.injEq] at hy
        subst hy
        exact List.mem_cons_self _ _
    have h1 := bwdLoop_le_off st.scale P st.scale.length hPpos hPle (tuningFuel P) 0 x hxm
    have h2 := fwdLoop_gt_off st.scale P hPpos hpos (tuningFuel P) 0 y hym
    linarith
  · intro e he
    simp only [updateTuning, List.map_append, List.mem_append, List.mem_map] at he
    rcases he with ⟨pr, hpr, rfl⟩ | ⟨pr, hpr, rfl⟩
    · refine ⟨bwdLoop_ge_min st.scale P st.scale.length (tuningFuel P) 0 pr hpr, ?_⟩
      have h1 := bwdLoop_le_off st.scale P st.scale.length hPpos hPle (tuningFuel P) 0 pr hpr
      simp only [MAX_VOLT]
      linarith
    · constructor
      · have h1 := fwdLoop_gt_off st.scale P hPpos hpos (tuningFuel P) 0 pr hpr
        simp only [MIN_VOLT]
        linarith
      · exact fwdLoop_le_max st.scale P (tuningFuel P) 0 pr hpr

/-- C2 counterexample: the scale `[0 cents, 1200 cents]` has non-decreasing
(even strictly increasing) cents values, yet the rebuilt full table
repeats voltages across period boundaries and is not strictly ascending. -/
theorem fullTable_sorted_counterexample :
    ¬ List.Chain' (fun a b : TuningStep => a.voltage < b.voltage)
      (updateTuning { scale := [⟨0, true⟩, ⟨1200, true⟩] }).pitches := by
  norm_num [updateTuning, tuningFuel, fwdLoop, fwdPassGo, bwdLoop, bwdPassGo,
    MIN_VOLT, MAX_VOLT, List.chain'_cons]

/-- C2 witness: the one-step 1200-cent scale satisfies the hypotheses and
its rebuilt table is sorted and bounded. -/
theorem fullTable_sorted_bounded_witness :
    ((({ scale := [⟨1200, true⟩] } : State).scale ≠ [] ∧
      List.Chain' (fun a b => a.cents < b.cents) ({ scale := [⟨1200, true⟩] } : State).scale ∧
      ∀ s ∈ ({ scale := [⟨1200, true⟩] } : State).scale, 0 < s.cents)) ∧
    (List.Chain' (fun a b : TuningStep => a.voltage < b.voltage)
        (updateTuning { scale := [⟨1200, true⟩] }).pitches ∧
      ∀ e ∈ (updateTuning { scale := [⟨1200, true⟩] }).pitches,
        MIN_VOLT ≤ e.voltage ∧ e.voltage ≤ MAX_VOLT) := by
  have h1 : ({ scale := [⟨1200, true⟩] } : State).scale ≠ [] := by simp
  have h2 : List.Chain' (fun a b => a.cents < b.cents)
      ({ scale := [⟨1200, true⟩] } : State).scale := by simp
  have h3 : ∀ s ∈ ({ scale := [⟨1200, true⟩] } : State).scale, 0 < s.cents := by
    intro s hs
    simp only [List.mem_singleton] at hs
    subst hs
    norm_num
  exact ⟨⟨h1, h2, h3⟩, fullTable_sorted_bounded { scale := [⟨1200, true⟩] } h1 h2 h3⟩

/-! ## C8: the negative-entry counters -/

/-- All entries of a backward loop started at a negative offset are
strictly negative. -/
theorem bwdLoop_neg (scale : List ScaleStep) (P : ℚ) (n : ℕ) (hP : 0 < P)
    (hle : ∀ s ∈ scale, s.cents ≤ P) :
    ∀ (fuel : ℕ) (off : ℚ), off < 0 →
      ∀ e ∈ bwdLoop scale P n fuel off, e.1.voltage < 0 := by
  intro fuel off hoff e he
  have := bwdLoop_le_off scale P n hP hle fuel off e he
  linarith

/-- C8 (amended): after a rebuild from a scale with strictly increasing,
strictly positive cents, `numNegativeVoltages` equals the number of
full-table entries with voltage < 0 and `numEnabledNegativeVoltages`
equals the number of enabled-table entries with voltage < 0. -/
theorem negativeCounts (st : State) (hne : st.scale ≠ [])
    (hchain : List.Chain' (fun a b => a.cents < b.cents) st.scale)
    (hpos : ∀ s ∈ st.scale, 0 < s.cents) :
    (updateTuning st).numNegativeVoltages
      = (((updateTuning st).pitches.countP fun s => decide (s.voltage < 0)) : ℤ) ∧
    (updateTuning st).numEnabledNegativeVoltages
      = (((updateTuning st).enabledPitches.countP fun s => decide (s.voltage < 0)) : ℤ) := by
  set P := (st.scale.getLastD default).cents with hP
  have hPpos : 0 < P := hpos _ (getLastD_mem hne default)
  have hPle : ∀ s ∈ st.scale, s.cents ≤ P := cents_le_getLastD st.scale hchain default
  set n := st.scale.length with hn
  set fwd := fwdLoop st.scale P (tuningFuel P) 0 with hfwd
  set bwd := bwdLoop st.scale P n (tuningFuel P) 0 with hbwd
  obtain ⟨a, t, hrev⟩ : ∃ a t, st.scale.reverse = a :: t := by
    cases hr : st.scale.reverse with
    | nil =>
      have h0 : st.scale = [] := by simpa using congrArg List.reverse hr
      exact absurd h0 hne
    | cons a t => exact ⟨a, t, rfl⟩
  have hacents : a.cents = P := by
    have h1 : st.scale.reverse.head? = some a := by rw [hrev]; rfl
    rw [List.head?_reverse] at h1
    have h2 : st.scale.getLastD default = a := by
      rw [List.getLastD_eq_getLast?, h1]
      rfl
    rw [hP, h2]
  have htlt : ∀ s ∈ t, s.cents < P := by
    letI : IsTrans ScaleStep (fun a b => b.cents < a.cents) :=
      ⟨fun _ _ _ h1 h2 => lt_trans h2 h1⟩
    have hchainrev : List.Chain' (fun x y => y.cents < x.cents) (a :: t) := by
      rw [← hrev, List.chain'_reverse]
      exact hchain
    have hpw := List.chain'_iff_pairwise.mp hchainrev
    intro s hs
    have h3 := (List.pairwise_cons.mp hpw).1 s hs
    rw [← hacents]
    exact h3
  have hpass0 : (bwdPassGo P 0 n 0 st.scale.reverse).1
      = (⟨⟨0, (n : ℤ) - 0 - 1⟩, a.enabled⟩ : TuningStep × Bool)
        :: (bwdPassGo P 0 n 1 t).1 := by
    rw [hrev]
    simp only [bwdPassGo, hacents]
    rw [if_pos (by norm_num [MIN_VOLT])]
    norm_num
  have hrest_neg : ∀ e ∈ (bwdPassGo P 0 n 1 t).1, e.1.voltage < 0 := by
    intro e he
    have h1 := bwdPassGo_lt_off P n t 0 1 e htlt he
    linarith
  have hful : (updateTuning st).pitches.countP (fun s => decide (s.voltage < 0))
      = bwd.countP (fun e => decide (e.1.voltage < 0)) := by
    show ((bwd ++ fwd).map Prod.fst).countP _ = _
    rw [List.countP_map, List.countP_append]
    have hfz : fwd.countP ((fun s => decide (s.voltage < 0)) ∘ Prod.fst) = 0 := by
      rw [List.countP_eq_zero]
      intro e he
      have h1 := fwdLoop_gt_off st.scale P hPpos hpos (tuningFuel P) 0 e he
      simp only [Function.comp_apply, decide_eq_true_eq]
      intro hc
      linarith
    rw [hfz]
    rfl
  have hcount0 : ((bwdPassGo P 0 n 0 st.scale.reverse).1.reverse).countP
      (fun e => decide (e.1.voltage < 0))
      = (bwdPassGo P 0 n 0 st.scale.reverse).1.reverse.length - 1 ∧
      1 ≤ (bwdPassGo P 0 n 0 st.scale.reverse).1.reverse.length := by
    rw [List.countP_reverse, List.length_reverse, hpass0]
    constructor
    · rw [List.countP_cons]
      have hr : (bwdPassGo P 0 n 1 t).1.countP (fun e => decide (e.1.voltage < 0))
          = (bwdPassGo P 0 n 1 t).1.length := by
        rw [List.countP_eq_length]
        intro e he
        simpa using hrest_neg e he
      rw [hr]
      norm_num
    · simp
  have hbwd_count : bwd.countP (fun e => decide (e.1.voltage < 0)) = bwd.length - 1 ∧
      1 ≤ bwd.length := by
    obtain ⟨f', hf'⟩ : ∃ f', tuningFuel P = f' + 1 := ⟨(7200 / P).ceil.toNat + 1, rfl⟩
    rw [hbwd, hf']
    simp only [bwdLoop]
    by_cases hdone : (bwdPassGo P 0 n 0 st.scale.reverse).2 = true
    · rw [if_pos hdone]
      exact hcount0
    · rw [if_neg hdone]
      rw [List.countP_append, List.length_append]
      have hdeep : (bwdLoop st.scale P n f' (0 - P / 1200)).countP
          (fun e => decide (e.1.voltage < 0))
          = (bwdLoop st.scale P n f' (0 - P / 1200)).length := by
        rw [List.countP_eq_length]
        intro e he
        have hneg : (0 : ℚ) - P / 1200 < 0 := by
          have : (0 : ℚ) < P / 1200 := by positivity
          linarith
        have h1 := bwdLoop_neg st.scale P n hPpos hPle f' (0 - P / 1200) hneg e he
        simpa using h1
      rw [hdeep, hcount0.1]
      have h2 := hcount0.2
      omega
  constructor
  · show (bwd.length : ℤ) - 1 = _
    rw [hful, hbwd_count.1]
    have h1 := hbwd_count.2
    omega
  · show ((bwd.filter fun e => e.2 && decide (e.1.voltage < 0)).length : ℤ)
        = (((((bwd ++ fwd).filter Prod.snd).map Prod.fst).countP
            fun s => decide (s.voltage < 0) : ℕ) : ℤ)
    have hen : (((bwd ++ fwd).filter Prod.snd).map Prod.fst).countP
        (fun s => decide (s.voltage < 0))
        = (bwd.filter fun e => e.2 && decide (e.1.voltage < 0)).length := by
      rw [List.countP_map, List.countP_filter, List.countP_append]
      have hfz : fwd.countP
          (fun a => ((fun s => decide (s.voltage < 0)) ∘ Prod.fst) a && Prod.snd a) = 0 := by
        rw [List.countP_eq_zero]
        intro e he
        have h1 := fwdLoop_gt_off st.scale P hPpos hpos (tuningFuel P) 0 e he
        simp only [Function.comp_apply, Bool.and_eq_true, decide_eq_true_eq]
        rintro ⟨hc, _⟩
        linarith
      rw [hfz, Nat.add_zero, ← List.countP_eq_length_filter]
      apply List.countP_congr
      intro e _
      simp only [Function.comp_apply, Bool.and_eq_true, decide_eq_true_eq]
      tauto
    rw [hen]

/-- C8 witness: the one-step 1200-cent scale satisfies the hypotheses and
its counters match the tables' negative-entry counts. -/
theorem negativeCounts_witness :
    ((({ scale := [⟨1200, true⟩] } : State).scale ≠ [] ∧
      List.Chain' (fun a b => a.cents < b.cents) ({ scale := [⟨1200, true⟩] } : State).scale ∧
      ∀ s ∈ ({ scale := [⟨1200, true⟩] } : State).scale, 0 < s.cents)) ∧
    ((updateTuning { scale := [⟨1200, true⟩] }).numNegativeVoltages
      = (((updateTuning { scale := [⟨1200, true⟩] }).pitches.countP
          fun s => decide (s.voltage < 0)) : ℤ) ∧
    (updateTuning { scale := [⟨1200, true⟩] }).numEnabledNegativeVoltages
      = (((updateTuning { scale := [⟨1200, true⟩] }).enabledPitches.countP
          fun s => decide (s.voltage < 0)) : ℤ)) := by
  have h1 : ({ scale := [⟨1200, true⟩] } : State).scale ≠ [] := by simp
  have h2 : List.Chain' (fun a b => a.cents < b.cents)
      ({ scale := [⟨1200, true⟩] } : State).scale := by simp
  have h3 : ∀ s ∈ ({ scale := [⟨1200, true⟩] } : State).scale, 0 < s.cents := by
    intro s hs
    simp only [List.mem_singleton] at hs
    subst hs
    norm_num
  exact ⟨⟨h1, h2, h3⟩, negativeCounts { scale := [⟨1200, true⟩] } h1 h2 h3⟩

/-- C8 counterexample: with the duplicate-cents scale `[1200, 1200]` (a
non-decreasing non-empty ScaleModel) the backward walk emits two 0 V
entries, so `numNegativeVoltages` is 9 while only 8 full-table entries
are negative. -/
theorem negativeCounts_counterexample :
    (updateTuning { scale := [⟨1200, true⟩, ⟨1200, true⟩] }).numNegativeVoltages
      ≠ (((updateTuning { scale := [⟨1200, true⟩, ⟨1200, true⟩] }).pitches.countP
          fun s => decide (s.voltage < 0)) : ℤ) := by
  norm_num [updateTuning, tuningFuel, fwdLoop, fwdPassGo, bwdLoop, bwdPassGo,
    MIN_VOLT, MAX_VOLT, List.countP_cons]

/-! ## C10: quantizer results always carry an in-bounds scale index -/

/-- Any quantizer result of a state whose tables' entries carry indices
below `N` and whose scale has length `N > 0` has an index in `[0, N)`. -/
theorem quantizePitch_bounds (stq : State) (v : ℚ) (mode : MappingMode) (enabled : Bool)
    (N : ℕ) (hN : 0 < N) (hsl : stq.scale.length = N)
    (hP : ∀ e ∈ stq.pitches, 0 ≤ e.scaleIndex ∧ e.scaleIndex < (N : ℤ))
    (hE : ∀ e ∈ stq.enabledPitches, 0 ≤ e.scaleIndex ∧ e.scaleIndex < (N : ℤ)) :
    0 ≤ (quantizePitch stq v mode enabled).scaleIndex ∧
      (quantizePitch stq v mode enabled).scaleIndex < (N : ℤ) := by
  rcases quantizePitch_mem_or_sentinel stq v mode enabled with hs | hm | hm
  · rw [hs]
    simp only [emptySentinel, hsl]
    omega
  · exact hP _ hm
  · exact hE _ hm

/-- On a committed state the scale learner's fold never meets an
out-of-range index: every `scale.at` write is in bounds. -/
theorem learnScale_isSome (st : State) (volts : List ℚ) (h : st.scale ≠ []) :
    (learnScale (updateTuning st) volts).isSome = true := by
  have hN : 0 < st.scale.length := List.length_pos.mpr h
  have key : ∀ (vl : List ℚ) (sc : List ScaleStep), sc.length = st.scale.length →
      (List.foldlM
        (fun sc v =>
          enableStep sc (getCvPitch { updateTuning st with scale := sc } v).scaleIndex)
        sc vl).isSome = true := by
    intro vl
    induction vl with
    | nil =>
      intro sc _
      simp
    | cons v vl ih =>
      intro sc hsc
      rw [List.foldlM_cons]
      have hb0 := quantizePitch_bounds { updateTuning st with scale := sc } v
        ({ updateTuning st with scale := sc }).cvMappingMode false st.scale.length hN hsc
        (fun e he => @updateTuning_pitches_idx st e he)
        (fun e he => @updateTuning_enabledPitches_idx st e he)
      have hb : 0 ≤ (getCvPitch { updateTuning st with scale := sc } v).scaleIndex ∧
          (getCvPitch { updateTuning st with scale := sc } v).scaleIndex
            < (st.scale.length : ℤ) := by
        simpa [getCvPitch] using hb0
      have hstep : enableStep sc
          (getCvPitch { updateTuning st with scale := sc } v).scaleIndex
          = some (sc.set
              (getCvPitch { updateTuning st with scale := sc } v).scaleIndex.toNat
              { sc.get ⟨(getCvPitch { updateTuning st with scale := sc } v).scaleIndex.toNat,
                  by omega⟩ with enabled := true }) := by
        rw [enableStep, dif_pos ⟨hb.1, by omega⟩]
      rw [hstep]
      simp only [Option.bind_eq_bind, Option.some_bind]
      exact ih _ (by simp [hsc])
  have hscale : (updateTuning st).scale = st.scale := rfl
  rw [learnScale]
  exact key volts _ (by simp [hscale])

/-- C10: on a committed non-empty scale every quantizer result - in any
mapping mode, against either table, the empty-table sentinel included -
carries a scale index in `[0, scale.length)`, and the scale learner's
`scale.at(step.scaleIndex)` write always succeeds. -/
theorem quantize_index_in_range (st : State) (v : ℚ) (mode : MappingMode) (enabled : Bool)
    (volts : List ℚ) (h : st.scale ≠ []) :
    (0 ≤ (quantizePitch (updateTuning st) v mode enabled).scaleIndex ∧
      (quantizePitch (updateTuning st) v mode enabled).scaleIndex < (st.scale.length : ℤ)) ∧
    (learnScale (updateTuning st) volts).isSome = true := by
  have hN : 0 < st.scale.length := List.length_pos.mpr h
  refine ⟨?_, learnScale_isSome st volts h⟩
  exact quantizePitch_bounds (updateTuning st) v mode enabled st.scale.length hN
    (by simp [updateTuning])
    (fun e he => updateTuning_pitches_idx he)
    (fun e he => updateTuning_enabledPitches_idx he)

/-- C10 witness: the one-step scale, Proximity against the enabled table,
one learner input. -/
theorem quantize_index_in_range_witness :
    (({ scale := [⟨1200, true⟩] } : State).scale ≠ []) ∧
    ((0 ≤ (quantizePitch (updateTuning { scale := [⟨1200, true⟩] }) 0
          .proximity true).scaleIndex ∧
      (quantizePitch (updateTuning { scale := [⟨1200, true⟩] }) 0
          .proximity true).scaleIndex
        < ((({ scale := [⟨1200, true⟩] } : State)).scale.length : ℤ)) ∧
    (learnScale (updateTuning { scale := [⟨1200, true⟩] }) [0]).isSome = true) :=
  ⟨by simp, quantize_index_in_range { scale := [⟨1200, true⟩] } 0 .proximity true [0]
    (by simp)⟩

/-! ## C7: the scale learner's enabled set -/

/-- Unfolding a successful `enableStep`: the index is in bounds and the
entry at it is re-created with its enabled flag set. -/
theorem enableStep_eq_some {sc sc' : List ScaleStep} {i : ℤ}
    (h : enableStep sc i = some sc') :
    0 ≤ i ∧ i.toNat < sc.length ∧
      sc' = sc.set i.toNat { sc.getD i.toNat default with enabled := true } := by
  by_cases hb : 0 ≤ i ∧ i.toNat < sc.length
  · rw [enableStep, dif_pos hb] at h
    refine ⟨hb.1, hb.2, ?_⟩
    have hval : sc.get ⟨i.toNat, hb.2⟩ = sc.getD i.toNat default := by
      rw [List.get_eq_getElem, List.getD_eq_getElem?_getD, List.getElem?_eq_getElem hb.2]
      rfl
    rw [← Option.some.inj h, hval]
  · rw [enableStep, dif_neg hb] at h
    exact absurd h (by simp)

/-- The learning fold, run from any cents-compatible start: it succeeds
into a scale of the same cents whose enabled entries are exactly the
initially enabled ones plus the originating steps of the input voltages'
CV pitches (computed against the fixed tables of `st`). -/
theorem learn_fold_spec (st : State) :
    ∀ (volts : List ℚ) (sc sc' : List ScaleStep),
      sc.map (·.cents) = st.scale.map (·.cents) →
      List.foldlM
          (fun sc v => enableStep sc (getCvPitch { st with scale := sc } v).scaleIndex)
          sc volts = some sc' →
      sc'.length = sc.length ∧
      sc'.map (·.cents) = st.scale.map (·.cents) ∧
      ∀ i : ℕ, i < sc.length →
        ((sc'.getD i default).enabled = true ↔
          ((sc.getD i default).enabled = true ∨
            ∃ v ∈ volts, (getCvPitch st v).scaleIndex = (i : ℤ))) := by
  intro volts
  induction volts with
  | nil =>
    intro sc sc' hc hf
    simp only [List.foldlM_nil, Option.pure_def, Option.some.injEq] at hf
    subst hf
    refine ⟨rfl, hc, ?_⟩
    intro i _
    simp
  | cons v volts ih =>
    intro sc sc' hc hf
    rw [List.foldlM_cons] at hf
    have hcongr : getCvPitch { st with scale := sc } v = getCvPitch st v := by
      have h1 := quantizePitch_scale_congr st sc hc v st.cvMappingMode false
      simpa [getCvPitch] using h1
    rw [hcongr] at hf
    cases hstep : enableStep sc (getCvPitch st v).scaleIndex with
    | none =>
      rw [hstep] at hf
      simp at hf
    | some sc1 =>
      rw [hstep] at hf
      simp only [Option.bind_eq_bind, Option.some_bind] at hf
      obtain ⟨hge, hlt, rfl⟩ := enableStep_eq_some hstep
      set k : ℤ := (getCvPitch st v).scaleIndex with hk
      have hc1 : (sc.set k.toNat
          { sc.getD k.toNat default with enabled := true }).map
            (·.cents) = st.scale.map (·.cents) := by
        rw [set_map_cents]
        exact hc
      obtain ⟨hlen, hcm, hspec⟩ := ih _ sc' hc1 hf
      refine ⟨by rw [hlen, List.length_set], hcm, ?_⟩
      intro i hi
      have hi1 : i < (sc.set k.toNat
          { sc.getD k.toNat default with enabled := true }).length := by
        rw [List.length_set]
        exact hi
      rw [hspec i hi1]
      have hget : ((sc.set k.toNat
            { sc.getD k.toNat default with enabled := true }).getD i default).enabled
              = true ↔
          ((i : ℤ) = k ∨ (sc.getD i default).enabled = true) := by
        by_cases hik : k.toNat = i
        · subst hik
          have hval : (sc.set k.toNat
              { sc.getD k.toNat default with enabled := true }).getD k.toNat default
                = { sc.getD k.toNat default with enabled := true } := by
            rw [List.getD_eq_getElem?_getD, List.getElem?_set_self (by omega)]
            rfl
          rw [hval]
          constructor
          · intro _
            left
            omega
          · intro _
            rfl
        · have hval : (sc.set k.toNat
              { sc.getD k.toNat default with enabled := true }).getD i default
                = sc.getD i default := by
            rw [List.getD_eq_getElem?_getD, List.getElem?_set_ne hik,
              ← List.getD_eq_getElem?_getD]
          rw [hval]
          have hne : ¬((i : ℤ) = k) := by omega
          constructor
          · intro he
            right
            exact he
          · rintro (hik2 | hen)
            · exact absurd hik2 hne
            · exact hen
      rw [hget]
      constructor
      · rintro ((hik | hen) | ⟨w, hw, hwp⟩)
        · exact Or.inr ⟨v, List.mem_cons_self v volts, hik.symm⟩
        · exact Or.inl hen
        · exact Or.inr ⟨w, List.mem_cons_of_mem v hw, hwp⟩
      · rintro (hen | ⟨w, hw, hwp⟩)
        · exact Or.inl (Or.inr hen)
        · rcases List.mem_cons.mp hw with rfl | hw'
          · exact Or.inl (Or.inl hwp.symm)
          · exact Or.inr ⟨w, hw', hwp⟩

/-- C7: when the auxiliary vector differs from the previous scan's, the
scan disables every step and re-enables exactly the originating steps of
the input voltages' full-table pitches under the CV mapping mode with
`useEnabled = false`: the resulting enabled set is exactly that set of
originating steps. -/
theorem scaleLearner_enabled_set (st : State) (volts : List ℚ)
    (hvolts : volts ≠ st.prevInputVolts) :
    ∀ st' ∈ cvScanStep st volts, ∀ i : ℕ, i < st'.scale.length →
      ((st'.scale.getD i default).enabled = true ↔
        ∃ v ∈ volts, (getCvPitch st v).scaleIndex = (i : ℤ)) := by
  intro st' hmem
  rw [cvScanStep, if_pos hvolts, Option.mem_def, Option.map_eq_some'] at hmem
  obtain ⟨sc, hsc, rfl⟩ := hmem
  rw [learnScale] at hsc
  have hinit : ((st.scale.map fun s => { s with enabled := false }).map (·.cents))
      = st.scale.map (·.cents) := by
    simp [List.map_map, Function.comp]
  obtain ⟨hlen, _, hspec⟩ := learn_fold_spec st volts _ sc hinit hsc
  intro i hi
  have hscale : (updateTuning { st with scale := sc, prevInputVolts := volts }).scale = sc :=
    rfl
  rw [hscale] at hi ⊢
  have hi2 : i < st.scale.length := by
    have h1 := hlen
    simp only [List.length_map] at h1
    omega
  have hgoal := hspec i (by simpa using hi2)
  have hcleared : ((st.scale.map fun s : ScaleStep => { s with enabled := false }).getD
      i default).enabled = false := by
    rw [List.getD_eq_getElem?_getD, List.getElem?_map,
      List.getElem?_eq_getElem hi2]
    rfl
  rw [hgoal, hcleared]
  simp

/-- C7 witness: learning one voltage on the committed one-step scale. -/
theorem scaleLearner_enabled_set_witness :
    ([(1 : ℚ) / 3] ≠ stOne.prevInputVolts) ∧
    (∀ st' ∈ cvScanStep stOne [(1 : ℚ) / 3], ∀ i : ℕ, i < st'.scale.length →
      ((st'.scale.getD i default).enabled = true ↔
        ∃ v ∈ [(1 : ℚ) / 3], (getCvPitch stOne v).scaleIndex = (i : ℤ))) := by
  have h : [(1 : ℚ) / 3] ≠ stOne.prevInputVolts := by
    rw [stOne_eval]
    simp
  exact ⟨h, scaleLearner_enabled_set stOne [(1 : ℚ) / 3] h⟩

end XenQnt
